import Mathlib

/-!
# media-custodian: a verification development

A shallow embedding of `main.go` (package `main` of ksinica/media-custodian)
and theorems about it.  Go strings are sequences of code points (`String`),
bytes are `Fin 256`, machine integers are `Nat`/`Int` with explicit wrap-around.
Library collaborators (BLAKE3, the EXIF and MP4 decoders, the Unicode case
table, the local time zone) are fields of `Env`.  The filesystem is a tree of
regular files and directories, without symbolic links, permissions or I/O
failures; `filepath.Walk` recurses on a fuel that bounds the depth of the
descent, and it returns whenever the fuel exceeds the height of the tree.
-/

namespace MediaCustodian


/-! ## Basic data -/

abbrev Byte := Fin 256

/-- Size in bytes of the digest, `Blake3Size` in the source. -/
def Blake3Size : Nat := 32

/-- Go `error` values that occur in the program. -/
inductive Err where
  | notExist
  | notADirectory
  | isDirectory
  | noExif
  | unsupportedBoxVersion
  | os (code : Nat)
  | lib (code : Nat)
  deriving DecidableEq

deriving instance DecidableEq for Except

/-- Outcome of a Go call that may panic instead of returning. -/
inductive Go (α : Type) where
  | ret (a : α)
  | panic
  deriving DecidableEq

/-- Value of an EXIF tag, an `interface{}` in the source: a string for ASCII
tags, something else for the other tag types, or `nil`. -/
inductive TagValue where
  | nil
  | str (s : String)
  | other (kind : Nat)
  deriving DecidableEq

/-- The two fields of `exif.ExifTag` that the program reads. -/
structure ExifTag where
  TagName : String
  Value : TagValue
  deriving DecidableEq

/-! ## EXIF tag lookup (`findExifTag`, `findExifDateTime`) -/

/-- Source `findExifTag`: linear scan for the first entry with the name. -/
def findExifTag (entries : List ExifTag) (name : String) : TagValue × Bool :=
  match entries with
  | [] => (TagValue.nil, false)
  | x :: rest => if x.TagName = name then (x.Value, true) else findExifTag rest name

/-- The type assertion `value.(string)`: panics unless the value is a string. -/
def assertString : TagValue → Go String
  | TagValue.str s => Go.ret s
  | _ => Go.panic

/-- Source `findExifDateTime`. -/
def findExifDateTime (entries : List ExifTag) : Go (String × Bool) :=
  match findExifTag entries "DateTimeOriginal" with
  | (value, true) =>
    match assertString value with
    | Go.ret s => Go.ret (s, true)
    | Go.panic => Go.panic
  | (_, false) =>
    match findExifTag entries "DateTime" with
    | (value, true) =>
      match assertString value with
      | Go.ret s => Go.ret (s, true)
      | Go.panic => Go.panic
    | (_, false) => Go.ret ("", false)

/-! ## Strings: `filepath.Ext`, `strings.ToLower` -/

/-- Loop of `filepath.Ext`, run over the reversed path: stop at a separator,
return the suffix from the last dot. -/
def extAux : List Char → List Char → List Char
  | [], _ => []
  | c :: rest, acc =>
    if c = '/' then [] else if c = '.' then c :: acc else extAux rest (c :: acc)

/-- Go `filepath.Ext` (Unix separator). -/
def filepathExt (path : String) : String := ⟨extAux path.data.reverse []⟩

/-- Go `unicode.ToLower` on one rune: the ASCII rule for runes up to `0x7F`,
the Unicode case table (a parameter) for the others. -/
def lowerRune (table : Char → Char) (c : Char) : Char :=
  if c.toNat ≤ 127 then
    if 'A'.toNat ≤ c.toNat ∧ c.toNat ≤ 'Z'.toNat then Char.ofNat (c.toNat + 32) else c
  else table c

/-- Go `strings.ToLower` on a valid UTF-8 string. -/
def stringsToLower (table : Char → Char) (s : String) : String :=
  ⟨s.data.map (lowerRune table)⟩

/-- Source `extensionFor`. -/
def extensionFor (table : Char → Char) (p : String) : String :=
  let ext := stringsToLower table (filepathExt p)
  if ext = ".jpg" ∨ ext = ".jpeg" then ".jpeg" else ext

/-! ## Package `time`: instants, `Date`, `Parse`, `Format` -/

/-- A `*time.Location`: the offset east of UTC, in seconds, in effect at a
Unix second. -/
abbrev Location := Int → Int

/-- The location `time.UTC`. -/
def utcLoc : Location := fun _ => 0

/-- A `time.Time`: Unix seconds, nanoseconds and location. -/
structure Time where
  sec : Int
  nsec : Nat
  loc : Location

def secondsPerDay : Nat := 86400
def daysPer400Years : Nat := 146097
def daysPer100Years : Nat := 36524
def daysPer4Years : Nat := 1461
def absoluteZeroYear : Int := -292277022399
def unixToInternal : Int := 62135596800
def internalToAbsolute : Int := 9223371966579724800

/-- Conversion to `uint64`. -/
def wrapU64 (x : Int) : Nat := (x % 2 ^ 64).toNat

/-- Conversion to `int64`. -/
def wrapI64 (x : Int) : Int := (x + 2 ^ 63) % 2 ^ 64 - 2 ^ 63

/-- Go `time.Unix(sec, 0)`: the instant in the local zone. -/
def timeUnix (localZone : Location) (sec : Int) : Time := ⟨sec, 0, localZone⟩

/-- Go `Time.IsZero`: January 1, year 1, 00:00:00 UTC. -/
def Time.IsZero (t : Time) : Bool := t.sec + unixToInternal == 0 && t.nsec == 0

/-- Go `isLeap`; the remainders are only tested against zero. -/
def isLeap (year : Int) : Bool := year % 4 == 0 && (year % 100 != 0 || year % 400 == 0)

/-- Go table `daysBefore`. -/
def daysBefore : List Nat := [0, 31, 59, 90, 120, 151, 181, 212, 243, 273, 304, 334, 365]

/-- Go `daysIn`. -/
def daysIn (month : Nat) (year : Int) : Nat :=
  if month = 2 ∧ isLeap year then 29
  else daysBefore.getD month 0 - daysBefore.getD (month - 1) 0

/-- Go `norm`. -/
def norm (hi lo base : Int) : Int × Int :=
  let (hi, lo) :=
    if lo < 0 then
      let n := Int.tdiv (-lo - 1) base + 1
      (hi - n, lo + n * base)
    else (hi, lo)
  if lo ≥ base then
    let n := Int.tdiv lo base
    (hi + n, lo - n * base)
  else (hi, lo)

/-- Go `daysSinceEpoch`, on `uint64`. -/
def daysSinceEpoch (year : Int) : Nat :=
  let y := wrapU64 (year - absoluteZeroYear)
  let n := y / 400
  let y := y - 400 * n
  let d := daysPer400Years * n
  let n := y / 100
  let y := y - 100 * n
  let d := d + daysPer100Years * n
  let n := y / 4
  let y := y - 4 * n
  let d := d + daysPer4Years * n
  let n := y
  (d + 365 * n) % 2 ^ 64

/-- Go `time.Date(year, month, day, hour, min, sec, nsec, time.UTC)`; in UTC
the zone offset is zero, so no zone adjustment takes place. -/
def timeDateUTC (year month day hour min sec nsec : Int) : Time :=
  let ym := norm year (month - 1) 12
  let year := ym.1
  let month := ym.2 + 1
  let sn := norm sec nsec 1000000000
  let nsec := sn.2
  let ms := norm min sn.1 60
  let sec := ms.2
  let hm := norm hour ms.1 60
  let min := hm.2
  let dh := norm day hm.1 24
  let hour := dh.2
  let day := dh.1
  let d := daysSinceEpoch year
  let d := d + daysBefore.getD (month - 1).toNat 0
  let d := if isLeap year ∧ month ≥ 3 then d + 1 else d
  let d := wrapU64 (d + (day - 1))
  let abs := wrapU64 (d * secondsPerDay + (hour * 3600 + min * 60 + sec))
  let unix := wrapI64 (abs - internalToAbsolute - unixToInternal)
  ⟨unix, nsec.toNat, utcLoc⟩

/-- Go `Time.locabs`: seconds of the wall clock since the absolute epoch. -/
def Time.locabs (t : Time) : Nat :=
  wrapU64 (t.sec + t.loc t.sec + (unixToInternal + internalToAbsolute))

/-- Go `absDate`: year and day of the year. -/
def absYearDay (abs : Nat) : Int × Nat :=
  let d := abs / secondsPerDay
  let n := d / daysPer400Years
  let y := 400 * n
  let d := d - daysPer400Years * n
  let n := d / daysPer100Years
  let n := n - n / 4
  let y := y + 100 * n
  let d := d - daysPer100Years * n
  let n := d / daysPer4Years
  let y := y + 4 * n
  let d := d - daysPer4Years * n
  let n := d / 365
  let n := n - n / 4
  let y := y + n
  let d := d - 365 * n
  (wrapI64 ((y : Int) + absoluteZeroYear), d)

/-- Second half of Go `absDate`: month and day of the month from the day of
the year, given whether the year is a leap year. -/
def monthDayOf (leap : Bool) (yday : Nat) : Nat × Nat :=
  let day := yday
  if leap ∧ day = 31 + 29 - 1 then (2, 29)
  else
    let day := if leap ∧ day > 31 + 29 - 1 then day - 1 else day
    let month := day / 31
    let stop := daysBefore.getD (month + 1) 0
    if day ≥ stop then (month + 2, day - stop + 1)
    else (month + 1, day - daysBefore.getD month 0 + 1)

/-- Go `absDate` with `full` set: year, month, day of the month. -/
def absDate (abs : Nat) : Int × Nat × Nat :=
  let (year, yday) := absYearDay abs
  (year, monthDayOf (isLeap year) yday)

/-- Go `absClock`. -/
def absClock (abs : Nat) : Nat × Nat × Nat :=
  let sec := abs % secondsPerDay
  let hour := sec / 3600
  let sec := sec - hour * 3600
  let min := sec / 60
  let sec := sec - min * 60
  (hour, min, sec)

/-- Decimal digit character. -/
def digitChar (n : Nat) : Char := Char.ofNat (48 + n % 10)

/-- The decimal digits of a number, as `appendInt` assembles them by repeated
division; the fuel bounds their count. -/
def decimalDigits : Nat → Nat → List Char
  | 0, _ => []
  | fuel + 1, u => if u < 10 then [digitChar u] else decimalDigits fuel (u / 10) ++ [digitChar u]

/-- Go `appendInt`: sign, zero padding to the width, decimal digits; with its
fast paths for two and four digits. -/
def appendInt (x : Int) (width : Nat) : List Char :=
  let u := x.natAbs
  let sign := if x < 0 then ['-'] else []
  if width = 2 ∧ u < 100 then sign ++ [digitChar (u / 10), digitChar u]
  else if width = 4 ∧ u < 10000 then
    sign ++ [digitChar (u / 1000), digitChar (u / 100), digitChar (u / 10), digitChar u]
  else
    let ds := decimalDigits (u + 1) u
    sign ++ List.replicate (width - ds.length) '0' ++ ds

/-- Go `t.Format("2006-01")`. -/
def formatYearMonth (t : Time) : String :=
  let (year, month, _) := absDate t.locabs
  ⟨appendInt year 4 ++ ['-'] ++ appendInt month 2⟩

/-- Go `t.Format("20060102-150405")`. -/
def formatStamp (t : Time) : String :=
  let abs := t.locabs
  let (year, month, day) := absDate abs
  let (hour, min, sec) := absClock abs
  ⟨appendInt year 4 ++ appendInt month 2 ++ appendInt day 2 ++ ['-'] ++
    appendInt hour 2 ++ appendInt min 2 ++ appendInt sec 2⟩

/-- Go `isDigit(s, i)`. -/
def isDigit (s : List Char) (i : Nat) : Bool :=
  match s.get? i with
  | some c => '0'.toNat ≤ c.toNat && c.toNat ≤ '9'.toNat
  | none => false

/-- Value of a decimal digit character, `c - '0'`. -/
def digitVal (c : Char) : Nat := c.toNat - 48

/-- Go `getnum`: a one- or two-digit number; two digits are required when
`fixed`. -/
def getnum (s : List Char) (fixed : Bool) : Option (Nat × List Char) :=
  if !isDigit s 0 then none
  else if !isDigit s 1 then
    if fixed then none
    else
      match s with
      | c :: rest => some (digitVal c, rest)
      | [] => none
  else
    match s with
    | c0 :: c1 :: rest => some (digitVal c0 * 10 + digitVal c1, rest)
    | _ => none

/-- Go `cutspace`. -/
def cutspace : List Char → List Char
  | ' ' :: rest => cutspace rest
  | s => s

/-- Go `skip(value, prefix)` for a literal prefix of one character other than
a space. -/
def skipChar (value : List Char) (c : Char) : Option (List Char) :=
  match value with
  | v :: rest => if v = c then some rest else none
  | [] => none

/-- Go `skip(value, " ")`: any run of spaces, an error on another character. -/
def skipSpace (value : List Char) : Option (List Char) :=
  match value with
  | v :: _ => if v ≠ ' ' then none else some (cutspace value)
  | [] => some []

/-- Decimal value of a string of digits (Go `atoi` on digits). -/
def digitsVal (s : List Char) : Nat := s.foldl (fun acc c => acc * 10 + digitVal c) 0

/-- The year of layout element `2006`: exactly four digits. -/
def parseYear (value : List Char) : Option (Nat × List Char) :=
  if value.length < 4 ∨ !isDigit value 0 then none
  else
    let p := value.take 4
    if p.all (fun c => isDigit [c] 0) then some (digitsVal p, value.drop 4) else none

/-- Go `commaOrPeriod`. -/
def commaOrPeriod (c : Char) : Bool := c = '.' || c = ','

/-- A fractional second in the input that the layout does not have: the
digits after the separator are consumed, `parseNanoseconds` reads at most
nine of them. -/
def parseFraction (value : List Char) : Nat × List Char :=
  match value with
  | c :: d :: rest =>
    if commaOrPeriod c && isDigit [d] 0 then
      let ds := d :: rest.takeWhile (fun x => isDigit [x] 0)
      let used := ds.take 9
      (digitsVal used * 10 ^ (9 - used.length), rest.dropWhile (fun x => isDigit [x] 0))
    else (0, value)
  | _ => (0, value)

/-- Go `time.Parse("2006:01:02 15:04:05", value)`, the layout unrolled into
its elements; `none` stands for a parse error. -/
def timeParse (value : String) : Option Time :=
  match parseYear value.data with
  | none => none
  | some (year, value) =>
  match skipChar value ':' with
  | none => none
  | some value =>
  match getnum value true with
  | none => none
  | some (month, value) =>
  if month ≤ 0 ∨ 12 < month then none else
  match skipChar value ':' with
  | none => none
  | some value =>
  match getnum value true with
  | none => none
  | some (day, value) =>
  match skipSpace value with
  | none => none
  | some value =>
  match getnum value false with
  | none => none
  | some (hour, value) =>
  if 24 ≤ hour then none else
  match skipChar value ':' with
  | none => none
  | some value =>
  match getnum value true with
  | none => none
  | some (min, value) =>
  if 60 ≤ min then none else
  match skipChar value ':' with
  | none => none
  | some value =>
  match getnum value true with
  | none => none
  | some (sec, value) =>
  if 60 ≤ sec then none else
  let (nsec, value) := parseFraction value
  if value.length ≠ 0 then none
  else if day < 1 ∨ day > daysIn month year then none
  else some (timeDateUTC year month day hour min sec nsec)

/-! ## Digest stream: the file, the hasher, `io.TeeReader`, `io.Copy` -/

/-- A 32-byte digest, the result of `h.Sum(nil)`. -/
structure Digest where
  bytes : List Byte
  size : bytes.length = Blake3Size

/-- An `*os.File` opened for reading: the content and the read offset. -/
structure Reader where
  data : List Byte
  pos : Nat

/-- One `Read` with a buffer of `k` bytes: the next bytes, at most `k`. -/
def Reader.read (f : Reader) (k : Nat) : List Byte × Reader :=
  let bs := (f.data.drop f.pos).take k
  (bs, { f with pos := f.pos + bs.length })

/-- The running hash `h`: BLAKE3 is a streaming digest producer, its state is
represented by the bytes written so far. -/
structure Hasher where
  written : List Byte

/-- Go `blake3.New(Blake3Size, nil)`. -/
def Hasher.new : Hasher := ⟨[]⟩

/-- Go `h.Write(bs)`. -/
def Hasher.write (h : Hasher) (bs : List Byte) : Hasher := ⟨h.written ++ bs⟩

/-- Go `h.Sum(nil)`, for the digest function of the hash primitive. -/
def Hasher.sum (hashSum : List Byte → Digest) (h : Hasher) : Digest := hashSum h.written

/-- A procedure that consumes an `io.Reader`: it either returns, or asks for
one more `Read` of some size and goes on with the bytes it got. -/
inductive Scan (α : Type) where
  | done (a : α)
  | read (k : Nat) (next : List Byte → Scan α)

/-- Running a reader procedure on `io.TeeReader(f, h)`: every `Read` of the
file is also written to the hasher. -/
def Scan.run {α : Type} : Scan α → Reader → Hasher → α × Reader × Hasher
  | Scan.done a, f, h => (a, f, h)
  | Scan.read k next, f, h => (next (f.read k).1).run (f.read k).2 (h.write (f.read k).1)

/-- Go `io.Copy(h, f)`: the rest of the file, from the read offset to the end,
is written to the hasher. -/
def ioCopy (h : Hasher) (f : Reader) : Hasher × Reader :=
  (h.write (f.data.drop f.pos), { f with pos := max f.pos f.data.length })

/-- Hexadecimal digit of `hex.EncodeToString`. -/
def hexDigit (n : Nat) : Char := "0123456789abcdef".data.getD n '0'

/-- Go `hex.EncodeToString`. -/
def hexEncode (bs : List Byte) : String :=
  ⟨bs.flatMap (fun b => [hexDigit (b.val / 16), hexDigit (b.val % 16)])⟩

/-! ## MP4 box structure -/

/-- Payload of a box as `ReadPayload` returns it: a movie header with its
version and its field `CreationTimeV0`, or another box. -/
inductive Payload where
  | mvhd (version : Nat) (creationTimeV0 : Nat)
  | other

mutual
/-- A box in the stream: whether its type is supported, what `ReadPayload`
gives, and what `Expand` meets. -/
inductive Box where
  | mk (supported : Bool) (payload : Except Err Payload) (children : BoxSeq)
/-- A sequence of sibling boxes as the decoder meets it: its end, a decoding
failure, or a box followed by the rest. -/
inductive BoxSeq where
  | done
  | fail (e : Err)
  | cons (b : Box) (rest : BoxSeq)
end

/-! ## Collaborators -/

/-- The library collaborators of the program. -/
structure Env where
  /-- Unicode table of `unicode.ToLower` for runes above `0x7F`. -/
  lowerTable : Char → Char
  /-- BLAKE3 with 32 bytes of output. -/
  hashSum : List Byte → Digest
  /-- Go `exif.SearchAndExtractExifWithReader`. -/
  exifSearch : Scan (Except Err (List Byte))
  /-- Go `exif.GetFlatExifDataUniversalSearch`. -/
  exifDecode : List Byte → Except Err (List ExifTag)
  /-- The box structure `mp4.ReadBoxStructure` finds in a content. -/
  mp4Boxes : List Byte → BoxSeq
  /-- The zone `time.Local`. -/
  localZone : Location

/-! ## Path derivation -/

/-- The path both `fmt.Sprintf` calls build, `"<category>/%s/%s-%s%s"`. -/
def canonicalPath (category : String) (t : Time) (digest : Digest) (ext : String) : String :=
  category ++ "/" ++ formatYearMonth t ++ "/" ++ formatStamp t ++ "-" ++
    hexEncode digest.bytes ++ ext

/-- Source `appleEpochToTime`: the subtraction is done on `uint32`, then
widened to `int64`. -/
def appleEpochToTime (localZone : Location) (epoch : Nat) : Time :=
  timeUnix localZone ((((epoch : Int) - 2082844800) % 2 ^ 32))

/-- The zero `time.Time`, the initial value of the result `ret`. -/
def zeroTime : Time := ⟨-62135596800, 0, utcLoc⟩

mutual
/-- The handler of `findMP4DateTime` on one box. -/
def visitBox (localZone : Location) : Box → Time → Time × Option Err
  | Box.mk supported payload children, ret =>
    if supported then
      match payload with
      | Except.error e => (ret, some e)
      | Except.ok (Payload.mvhd _ creationTimeV0) => (appleEpochToTime localZone creationTimeV0, none)
      | Except.ok Payload.other =>
        match visitSeq localZone children ret with
        | (ret, some e) => if e = Err.unsupportedBoxVersion then (ret, none) else (ret, some e)
        | (ret, none) => (ret, none)
    else (ret, none)
/-- Go `mp4.ReadBoxStructure` and `Expand`: the handler on each box in turn,
stopping at the first error. -/
def visitSeq (localZone : Location) : BoxSeq → Time → Time × Option Err
  | BoxSeq.done, ret => (ret, none)
  | BoxSeq.fail e, ret => (ret, some e)
  | BoxSeq.cons b rest, ret =>
    match visitBox localZone b ret with
    | (ret, some e) => (ret, some e)
    | (ret, none) => visitSeq localZone rest ret
end

/-- Source `findMP4DateTime`, on the content of the file. -/
def findMP4DateTime (E : Env) (data : List Byte) : Time × Option Err :=
  visitSeq E.localZone (E.mp4Boxes data) zeroTime

/-! ## The filesystem -/

/-- A path, as the list of its components from the starting directory; the
empty list is that directory itself (`"."`). -/
abbrev Path := List String

/-- A node of the tree: a regular file with its content, or a directory with
its named entries. -/
inductive Node where
  | file (data : List Byte)
  | dir (entries : List (String × Node))

/-- The filesystem state: the entries of the starting directory. -/
structure FS where
  root : List (String × Node)

def ENOTDIR : Nat := 20
def EISDIR : Nat := 21
def EINVAL : Nat := 22
def ENOTEMPTY : Nat := 39

/-- The entry with a name in a directory listing. -/
def lookupEntry (entries : List (String × Node)) (name : String) : Option Node :=
  match entries with
  | [] => none
  | (n, x) :: rest => if n = name then some x else lookupEntry rest name

/-- Path resolution. -/
def Node.get : Node → Path → Except Err Node
  | t, [] => Except.ok t
  | Node.file _, _ :: _ => Except.error (Err.os ENOTDIR)
  | Node.dir entries, name :: rest =>
    match lookupEntry entries name with
    | none => Except.error Err.notExist
    | some child => child.get rest

/-- Replace, add or delete one entry of a directory listing. -/
def setEntry (entries : List (String × Node)) (name : String) (v : Option Node) :
    List (String × Node) :=
  match v with
  | none => entries.filter (fun e => e.1 ≠ name)
  | some x => (name, x) :: entries.filter (fun e => e.1 ≠ name)

/-- Replace, add or delete the node at a path whose parent directory exists. -/
def Node.alter : Node → Path → Option Node → Node
  | t, [], v => v.getD t
  | Node.file data, _ :: _, _ => Node.file data
  | Node.dir entries, [name], v => Node.dir (setEntry entries name v)
  | Node.dir entries, name :: r :: rest, v =>
    match lookupEntry entries name with
    | none => Node.dir entries
    | some child => Node.dir (setEntry entries name (some (child.alter (r :: rest) v)))

/-- Path resolution from the starting directory. -/
def FS.get (fs : FS) (p : Path) : Except Err Node := (Node.dir fs.root).get p

/-- Replace, add or delete the node at a path other than the start. -/
def FS.alter (fs : FS) (p : Path) (v : Option Node) : FS :=
  match p with
  | [] => fs
  | name :: rest =>
    match (Node.dir fs.root).alter (name :: rest) v with
    | Node.dir entries => ⟨entries⟩
    | Node.file _ => fs

/-- What `os.Stat` and `os.Lstat` report: the base name and the kind. -/
structure FileInfo where
  name : String
  isDir : Bool
  deriving DecidableEq

def Node.isDir : Node → Bool
  | Node.dir _ => true
  | Node.file _ => false

/-- Base name of a path, `info.Name()`. -/
def baseName (p : Path) : String := p.getLast?.getD "."

/-- Go `os.Stat` (and `os.Lstat`: the tree has no symbolic links). -/
def stat (fs : FS) (p : Path) : Except Err FileInfo :=
  match fs.get p with
  | Except.ok x => Except.ok ⟨baseName p, x.isDir⟩
  | Except.error e => Except.error e

/-- Go `os.Open` on a regular file, giving its content; opening a directory
is folded with the failure of the first `Read` on it. -/
def openFile (fs : FS) (p : Path) : Except Err (List Byte) :=
  match fs.get p with
  | Except.ok (Node.file data) => Except.ok data
  | Except.ok (Node.dir _) => Except.error (Err.os EISDIR)
  | Except.error e => Except.error e

/-- Order of Go strings, as `sort.Strings` compares them. -/
def strLe : List Char → List Char → Bool
  | [], _ => true
  | _ :: _, [] => false
  | a :: s, b :: t =>
    if a.toNat < b.toNat then true else if b.toNat < a.toNat then false else strLe s t

/-- Go `readDirNames`: the sorted names of the entries of a directory. -/
def readDirNames (fs : FS) (p : Path) : Except Err (List String) :=
  match fs.get p with
  | Except.ok (Node.dir entries) =>
    Except.ok ((entries.map Prod.fst).dedup.insertionSort (fun a b => strLe a.data b.data = true))
  | Except.ok (Node.file _) => Except.error (Err.os ENOTDIR)
  | Except.error e => Except.error e

/-- Go `os.MkdirAll`, walking down from the start: `done` is the part of the
path known to be a directory, `rest` the components still to be made. -/
def mkdirAllFrom (fs : FS) (done : Path) : List String → FS × Option Err
  | [] => (fs, none)
  | name :: rest =>
    match fs.get (done ++ [name]) with
    | Except.ok (Node.dir _) => mkdirAllFrom fs (done ++ [name]) rest
    | Except.ok (Node.file _) => (fs, some (Err.os ENOTDIR))
    | Except.error _ => mkdirAllFrom (fs.alter (done ++ [name]) (some (Node.dir []))) (done ++ [name]) rest

/-- Go `os.MkdirAll(p, 0755)`. -/
def mkdirAll (fs : FS) (p : Path) : FS × Option Err := mkdirAllFrom fs [] p

/-- Go `os.Rename(old, new)`, as `rename(2)` does it. -/
def rename (fs : FS) (old new : Path) : FS × Option Err :=
  match fs.get old with
  | Except.error e => (fs, some e)
  | Except.ok x =>
    if old = [] ∨ new = [] then (fs, some (Err.os EINVAL))
    else
      match fs.get new.dropLast with
      | Except.error e => (fs, some e)
      | Except.ok (Node.file _) => (fs, some (Err.os ENOTDIR))
      | Except.ok (Node.dir _) =>
        if old = new then (fs, none)
        else if x.isDir ∧ old <+: new then (fs, some (Err.os EINVAL))
        else
          match x, fs.get new with
          | Node.file _, Except.ok (Node.dir _) => (fs, some (Err.os EISDIR))
          | Node.dir _, Except.ok (Node.file _) => (fs, some (Err.os ENOTDIR))
          | Node.dir _, Except.ok (Node.dir (_ :: _)) => (fs, some (Err.os ENOTEMPTY))
          | _, _ => ((fs.alter old none).alter new (some x), none)

/-- Go `os.Remove`: a file, or an empty directory. -/
def remove (fs : FS) (p : Path) : FS × Option Err :=
  if p = [] then (fs, some (Err.os EINVAL))
  else
    match fs.get p with
    | Except.error e => (fs, some e)
    | Except.ok (Node.dir (_ :: _)) => (fs, some (Err.os ENOTEMPTY))
    | Except.ok _ => (fs.alter p none, none)

/-- Go `filepath.Join(dest, np)`: the components of `np` appended to the
clean path `dest`, empty and `.` components dropped, `..` going up. -/
def splitSlash : List Char → List Char → List String
  | [], cur => [⟨cur.reverse⟩]
  | c :: rest, cur => if c = '/' then ⟨cur.reverse⟩ :: splitSlash rest [] else splitSlash rest (c :: cur)

def joinStep (stack : Path) (comp : String) : Path :=
  if comp = "" ∨ comp = "." then stack
  else if comp = ".." then stack.dropLast
  else stack ++ [comp]

def filepathJoin (dest : Path) (np : String) : Path :=
  (splitSlash np.data []).foldl joinStep dest

/-- The string of a path, as `filepath.Walk` builds it with `Join`. -/
def pathString (p : Path) : String :=
  if p = [] then "." else "/".intercalate p

/-! ## The two path guessers -/

/-- Source `guessNewImagePath`. -/
def guessNewImagePath (E : Env) (fs : FS) (p : Path) : Go (Except Err String) :=
  match openFile fs p with
  | Except.error e => Go.ret (Except.error e)
  | Except.ok data =>
    let h := Hasher.new
    match E.exifSearch.run ⟨data, 0⟩ h with
    | (Except.error e, _, _) =>
      if e = Err.noExif then Go.ret (Except.ok "") else Go.ret (Except.error e)
    | (Except.ok b, f, h) =>
      match E.exifDecode b with
      | Except.error e => Go.ret (Except.error e)
      | Except.ok entries =>
        match findExifDateTime entries with
        | Go.panic => Go.panic
        | Go.ret (_, false) => Go.ret (Except.ok "")
        | Go.ret (dt, true) =>
          match timeParse dt with
          | none => Go.ret (Except.ok "")
          | some t =>
            let (h, _) := ioCopy h f
            Go.ret (Except.ok (canonicalPath "Pictures" t (h.sum E.hashSum)
              (extensionFor E.lowerTable (pathString p))))

/-- Source `guessNewVideoPath`. -/
def guessNewVideoPath (E : Env) (fs : FS) (p : Path) : Except Err String :=
  match openFile fs p with
  | Except.error e => Except.error e
  | Except.ok data =>
    match findMP4DateTime E data with
    | (_, some e) => Except.error e
    | (t, none) =>
      if t.IsZero then Except.ok ""
      else
        let (h, _) := ioCopy Hasher.new ⟨data, 0⟩
        Except.ok (canonicalPath "Videos" t (h.sum E.hashSum)
          (extensionFor E.lowerTable (pathString p)))

/-! ## The tree walker -/

/-- Source `createDirectoryIfNotExists`. -/
def createDirectoryIfNotExists (fs : FS) (p : Path) : FS × Option Err :=
  let p := p.dropLast
  match stat fs p with
  | Except.error e => if e ≠ Err.notExist then (fs, some e) else mkdirAll fs p
  | Except.ok info => if !info.isDir then (fs, some Err.notADirectory) else mkdirAll fs p

/-- Source `isDirEmpty`. -/
def isDirEmpty (fs : FS) (name : Path) : Bool × Option Err :=
  match fs.get name with
  | Except.error e => (false, some e)
  | Except.ok (Node.file _) => (false, some (Err.os ENOTDIR))
  | Except.ok (Node.dir []) => (true, none)
  | Except.ok (Node.dir (_ :: _)) => (false, none)

/-- Lines the program prints; `moved` and `removed` go to standard output,
the others to standard error. -/
inductive Msg where
  | errImage (p : Path) (e : Err)
  | errVideo (p : Path) (e : Err)
  | noMetadata (p : Path)
  | duplicate (p : Path)
  | moved (p np : Path)
  | emptyCheckFailed (p : Path) (e : Err)
  | notRemoved (p : Path) (e : Err)
  | removed (p : Path)
  deriving DecidableEq

/-- The state the program acts on: the filesystem and the lines printed. -/
structure World where
  fs : FS
  out : List Msg

def World.print (w : World) (m : Msg) : World := { w with out := w.out ++ [m] }

/-- How a call ends: it returns an error value (possibly `nil`), it panics,
or the walk below ran out of fuel. -/
inductive Outcome where
  | done (err : Option Err)
  | panic
  | outOfFuel
  deriving DecidableEq

/-- A `filepath.WalkFunc` acting on the state. -/
abbrev WalkFn := World → Path → Option FileInfo → Option Err → World × Outcome

/-- The part of the first callback after the path was guessed. -/
def place (dest : Path) (w : World) (p : Path) (np : String) : World × Outcome :=
  if np.length = 0 then (w.print (Msg.noMetadata p), Outcome.done none)
  else
    let np := filepathJoin dest np
    match createDirectoryIfNotExists w.fs np with
    | (fs, some e) => ({ w with fs := fs }, Outcome.done (some e))
    | (fs, none) =>
      match stat fs np with
      | Except.error Err.notExist =>
        match rename fs p np with
        | (fs, some e) => ({ w with fs := fs }, Outcome.done (some e))
        | (fs, none) => (World.print { w with fs := fs } (Msg.moved p np), Outcome.done none)
      | _ => (World.print { w with fs := fs } (Msg.duplicate p), Outcome.done none)

/-- The callback of the first walk of `run`. -/
def moveStep (E : Env) (dest : Path) : WalkFn := fun w p info err =>
  match err with
  | some e => (w, Outcome.done (some e))
  | none =>
    match info with
    | none => (w, Outcome.panic)
    | some info =>
      if !info.isDir then
        let ext := stringsToLower E.lowerTable (filepathExt info.name)
        if ext = ".jpg" ∨ ext = ".jpeg" ∨ ext = ".dng" then
          match guessNewImagePath E w.fs p with
          | Go.panic => (w, Outcome.panic)
          | Go.ret (Except.error e) => (w.print (Msg.errImage p e), Outcome.done none)
          | Go.ret (Except.ok np) => place dest w p np
        else if ext = ".mp4" then
          match guessNewVideoPath E w.fs p with
          | Except.error e => (w.print (Msg.errVideo p e), Outcome.done none)
          | Except.ok np => place dest w p np
        else (w, Outcome.done none)
      else (w, Outcome.done none)

/-- The callback of the second walk of `run`. -/
def pruneStep : WalkFn := fun w p info err =>
  match err with
  | some e => (w, Outcome.done (some e))
  | none =>
    match info with
    | none => (w, Outcome.panic)
    | some info =>
      if info.isDir then
        match isDirEmpty w.fs p with
        | (_, some e) => (w.print (Msg.emptyCheckFailed p e), Outcome.done none)
        | (ok, none) =>
          if ok then
            match remove w.fs p with
            | (fs, some e) => (World.print { w with fs := fs } (Msg.notRemoved p e), Outcome.done none)
            | (fs, none) => (World.print { w with fs := fs } (Msg.removed p), Outcome.done none)
          else (w, Outcome.done none)
      else (w, Outcome.done none)

/-- The loop of `walk` over the names of a directory; `visit` handles one
entry and the loop stops at the first outcome other than `nil`. -/
def forNames (visit : World → Path → World × Outcome) (path : Path) :
    List String → World → World × Outcome
  | [], w => (w, Outcome.done none)
  | name :: rest, w =>
    match visit w (path ++ [name]) with
    | (w, Outcome.done none) => forNames visit path rest w
    | r => r

/-- One round of the loop of `walk`: `Lstat` on the entry, then the callback
with the error or the descent into the entry. -/
def visitEntry (fn : WalkFn) (descend : World → Path → FileInfo → World × Outcome)
    (w : World) (filename : Path) : World × Outcome :=
  match stat w.fs filename with
  | Except.error e => fn w filename none (some e)
  | Except.ok fileInfo => descend w filename fileInfo

/-- Go `filepath.walk`; the callbacks of `run` never return `SkipDir`. The
fuel bounds the depth of the descent. -/
def walk (fn : WalkFn) : Nat → World → Path → FileInfo → World × Outcome
  | 0, w, _, _ => (w, Outcome.outOfFuel)
  | fuel + 1, w, path, info =>
    if !info.isDir then fn w path (some info) none
    else
      match readDirNames w.fs path with
      | Except.error e => fn w path (some info) (some e)
      | Except.ok names =>
        match fn w path (some info) none with
        | (w, Outcome.done none) => forNames (visitEntry fn (walk fn fuel)) path names w
        | r => r

/-- Go `filepath.Walk`. -/
def filepathWalk (fn : WalkFn) (fuel : Nat) (w : World) (root : Path) : World × Outcome :=
  match stat w.fs root with
  | Except.error e => fn w root none (some e)
  | Except.ok info => walk fn fuel w root info

/-- Source `run`. -/
def run (E : Env) (fuel : Nat) (src dest : Path) (w : World) : World × Outcome :=
  match filepathWalk (moveStep E dest) fuel w src with
  | (w, Outcome.done none) => filepathWalk pruneStep fuel w src
  | r => r

/-! ## Definitions used in the statements and a small concrete environment -/

/-- Day of the year of a calendar day, counted from zero. -/
def ydayOf (leap : Bool) (month day : Nat) : Nat :=
  daysBefore.getD (month - 1) 0 + (if leap ∧ month ≥ 3 then 1 else 0) + (day - 1)

/-- Length of a month of the Gregorian calendar. -/
def monthLength (leap : Bool) (month : Nat) : Nat :=
  if month = 2 then (if leap then 29 else 28)
  else if month = 4 ∨ month = 6 ∨ month = 9 ∨ month = 11 then 30
  else 31

/-- Two decimal digits of a number below one hundred. -/
def pad2 (n : Nat) : List Char := [digitChar (n / 10), digitChar n]

/-- Four decimal digits of a number below ten thousand. -/
def pad4 (n : Nat) : List Char :=
  [digitChar (n / 1000), digitChar (n / 100), digitChar (n / 10), digitChar n]

/-- The leap years of the Gregorian calendar. -/
def gregorianLeap (year : Nat) : Bool :=
  year % 4 = 0 ∧ (year % 100 ≠ 0 ∨ year % 400 = 0)

/-- The fields of a valid calendar date-time with a four-digit year. -/
def validDateTime (Y M D h mi s : Nat) : Prop :=
  Y ≤ 9999 ∧ 1 ≤ M ∧ M ≤ 12 ∧ 1 ≤ D ∧ D ≤ monthLength (gregorianLeap Y) M ∧
    h < 24 ∧ mi < 60 ∧ s < 60

/-- The EXIF date value `YYYY:MM:DD HH:MM:SS` with the given fields. -/
def exifDateString (Y M D h mi s : Nat) : String :=
  ⟨pad4 Y ++ [':'] ++ pad2 M ++ [':'] ++ pad2 D ++ [' '] ++ pad2 h ++ [':'] ++ pad2 mi ++
    [':'] ++ pad2 s⟩

/-- A stand-in for BLAKE3: 32 bytes that start `ab 12` and go on with a
checksum of the content. -/
def demoDigest (data : List Byte) : Digest :=
  ⟨[0xab, 0x12] ++ (List.range 30).map
      (fun i => Fin.ofNat (data.foldl (fun acc b => (acc * 31 + b.val + i) % 256) 7)),
    by simp [Blake3Size]⟩

/-- A stand-in for the EXIF search: the marker `FF E1`, then 19 bytes. -/
def demoSearch : Scan (Except Err (List Byte)) :=
  Scan.read 2 (fun hd =>
    if hd = [0xFF, 0xE1] then Scan.read 19 (fun raw => Scan.done (Except.ok raw))
    else Scan.done (Except.error Err.noExif))

/-- A stand-in for the EXIF decoder: the bytes are the date value. -/
def demoDecode (raw : List Byte) : Except Err (List ExifTag) :=
  Except.ok [⟨"Make", TagValue.str "demo"⟩,
    ⟨"DateTimeOriginal", TagValue.str ⟨raw.map (fun b => Char.ofNat b.val)⟩⟩]

/-- A stand-in for the MP4 decoder: the first byte is the version of the
movie header inside a `moov` box, the second sets its creation time. -/
def demoBoxes (data : List Byte) : BoxSeq :=
  match data with
  | v :: t :: _ =>
    BoxSeq.cons (Box.mk true (Except.ok Payload.other)
      (BoxSeq.cons (Box.mk true
        (Except.ok (Payload.mvhd v.val (if v.val = 0 then 3896208000 + t.val else 0)))
        BoxSeq.done) BoxSeq.done)) BoxSeq.done
  | _ => BoxSeq.done

def demoEnv : Env := ⟨id, demoDigest, demoSearch, demoDecode, demoBoxes, utcLoc⟩

def bytesOf (s : String) : List Byte := s.data.map (fun c => Fin.ofNat c.toNat)

/-- A picture taken on 2023-06-15 at 10:30:00. -/
def demoPhoto : List Byte := [0xFF, 0xE1] ++ bytesOf "2023:06:15 10:30:00" ++ [1, 2, 3, 4, 5]

/-- A video whose movie header is of version 1. -/
def demoVideoV1 : List Byte := [1, 0, 7, 7]

def demoFS : FS :=
  ⟨[("in", Node.dir [("a.jpeg", Node.file demoPhoto),
      ("sub", Node.dir [("b.JPG", Node.file demoPhoto), ("v.mp4", Node.file demoVideoV1)]),
      ("notes.txt", Node.file [])])]⟩

def demoTags : List ExifTag :=
  [⟨"DateTime", TagValue.str "2001:01:01 00:00:00"⟩,
   ⟨"DateTimeOriginal", TagValue.str "2023:06:15 10:30:00"⟩,
   ⟨"DateTimeOriginal", TagValue.str "1999:12:31 23:59:59"⟩]

/-- The demo tree after `in/a.jpeg` was moved below `out`. -/
def demoPlacedFS : FS :=
  ⟨[("out", Node.dir [("Pictures", Node.dir [("2023-06", Node.dir
      [("20230615-103000-ab1227c76707a747e78727c76707a747e78727c76707a747e78727c76707a747.jpeg",
        Node.file demoPhoto)])])]),
    ("in", Node.dir [("sub", Node.dir [("b.JPG", Node.file demoPhoto),
      ("v.mp4", Node.file demoVideoV1)]), ("notes.txt", Node.file [])])]⟩

/-- A time whose year, on its wall clock, has four digits. -/
def FourDigitYear (t : Time) : Prop :=
  0 ≤ (absDate t.locabs).1 ∧ (absDate t.locabs).1 ≤ 9999

/-- A character that `Format` prints: a digit or the minus sign. -/
def StampChar (c : Char) : Prop := c = '-' ∨ c = '0' ∨ ∃ n, c = digitChar n

/-- Source and destination roots that keep the derived paths out of the
source tree: the source root is neither the destination root nor above it,
and it is not in or below the `Pictures` or `Videos` directory of the
destination. -/
def Separated (src dest : Path) : Prop :=
  ¬ src <+: dest ∧ ¬ (dest ++ ["Pictures"]) <+: src ∧ ¬ (dest ++ ["Videos"]) <+: src

/-- What can be observed at a path apart from the listing of a directory:
the content of a file, that it is a directory, or the error. -/
def obs : Except Err Node → Except Err (Option (List Byte))
  | Except.ok (Node.file d) => Except.ok (some d)
  | Except.ok (Node.dir _) => Except.ok none
  | Except.error e => Except.error e

/-- The new state has everything the old one had, observably unchanged, and
no file the old one did not have. -/
def Grow (fs fs' : FS) : Prop :=
  (∀ q, (∃ x, fs.get q = Except.ok x) → obs (fs'.get q) = obs (fs.get q)) ∧
  (∀ q d, fs'.get q = Except.ok (Node.file d) → fs.get q = Except.ok (Node.file d))

/-- What a step of `run` on the source tree `src` may change: no file comes
to exist below `src`, and what exists outside `src` keeps existing. -/
def Frame (src : Path) (fs fs' : FS) : Prop :=
  (∀ q d, src <+: q → fs'.get q = Except.ok (Node.file d) → fs.get q = Except.ok (Node.file d)) ∧
  (∀ q, ¬ src <+: q → (∃ x, fs.get q = Except.ok x) → ∃ x, fs'.get q = Except.ok x)

/-- The first walk derives the path `np` for the file at `p`: the extension
selects an extractor and the extractor yields the non-empty path `np`. -/
def Candidate (E : Env) (fs : FS) (p : Path) (np : String) : Prop :=
  np.length ≠ 0 ∧
  (((stringsToLower E.lowerTable (filepathExt (baseName p)) = ".jpg" ∨
        stringsToLower E.lowerTable (filepathExt (baseName p)) = ".jpeg" ∨
        stringsToLower E.lowerTable (filepathExt (baseName p)) = ".dng") ∧
      guessNewImagePath E fs p = Go.ret (Except.ok np)) ∨
    (stringsToLower E.lowerTable (filepathExt (baseName p)) = ".mp4" ∧
      guessNewVideoPath E fs p = Except.ok np))

/-- Every candidate file at or below `root` has its destination in place. -/
def Settled (E : Env) (dest : Path) (fs : FS) (root : Path) : Prop :=
  ∀ p d np, root <+: p → fs.get p = Except.ok (Node.file d) → Candidate E fs p np →
    ∃ x, fs.get (filepathJoin dest np) = Except.ok x

/-- The line printed after a successful rename. -/
def Msg.isMoved : Msg → Bool
  | Msg.moved _ _ => true
  | _ => false

/-- A picture with the date of `demoPhoto` and another content. -/
def otherPhoto : List Byte := [0xFF, 0xE1] ++ bytesOf "2023:06:15 10:30:00" ++ [9, 9]

/-- A library sorted in place (source and destination are both `lib`) in
which the file at the canonical path of `demoPhoto` has another content. -/
def overlapFS : FS :=
  ⟨[("lib", Node.dir [("A.jpg", Node.file demoPhoto),
      ("Pictures", Node.dir [("2023-06", Node.dir
        [("20230615-103000-ab1227c76707a747e78727c76707a747e78727c76707a747e78727c76707a747.jpeg",
          Node.file otherPhoto)])])])]⟩

mutual
/-- Number of levels of names below a node: the length of the longest path
that resolves from it. -/
def Node.height : Node → Nat
  | Node.file _ => 0
  | Node.dir entries => heightList entries
/-- The same for the entries of a directory. -/
def heightList : List (String × Node) → Nat
  | [] => 0
  | e :: rest => max (e.2.height + 1) (heightList rest)
end

/-- Length of the longest path that resolves in the tree. -/
def FS.height (fs : FS) : Nat := heightList fs.root

/-! # Theorems -/

set_option maxRecDepth 100000

/-! ## EXIF tag lookup -/

theorem findExifTag_eq_find (entries : List ExifTag) (name : String) :
    findExifTag entries name =
      match entries.find? (fun x => decide (x.TagName = name)) with
      | some x => (x.Value, true)
      | none => (TagValue.nil, false) := by
  induction entries with
  | nil => rfl
  | cons x rest ih =>
    by_cases h : x.TagName = name
    · simp [findExifTag, List.find?, h]
    · simp [findExifTag, List.find?, h, ih]

/-- C8: on a list of tags whose values are strings, `findExifDateTime` returns
the value of the first entry named `DateTimeOriginal` if there is one,
otherwise the value of the first entry named `DateTime` if there is one,
otherwise it reports that nothing was found. -/
theorem findExifDateTime_first_match (entries : List ExifTag)
    (hstr : ∀ x ∈ entries, ∃ s, x.Value = TagValue.str s) :
    (∀ x, entries.find? (fun x => decide (x.TagName = "DateTimeOriginal")) = some x →
      ∃ s, x.Value = TagValue.str s ∧ findExifDateTime entries = Go.ret (s, true)) ∧
    (entries.find? (fun x => decide (x.TagName = "DateTimeOriginal")) = none →
      ∀ x, entries.find? (fun x => decide (x.TagName = "DateTime")) = some x →
        ∃ s, x.Value = TagValue.str s ∧ findExifDateTime entries = Go.ret (s, true)) ∧
    (entries.find? (fun x => decide (x.TagName = "DateTimeOriginal")) = none →
      entries.find? (fun x => decide (x.TagName = "DateTime")) = none →
        findExifDateTime entries = Go.ret ("", false)) := by
  refine ⟨?_, ?_, ?_⟩
  · intro x hx
    obtain ⟨s, hs⟩ := hstr x (List.mem_of_find?_eq_some hx)
    refine ⟨s, hs, ?_⟩
    simp [findExifDateTime, findExifTag_eq_find, hx, hs, assertString]
  · intro hnone x hx
    obtain ⟨s, hs⟩ := hstr x (List.mem_of_find?_eq_some hx)
    refine ⟨s, hs, ?_⟩
    simp [findExifDateTime, findExifTag_eq_find, hx, hnone, hs, assertString]
  · intro hnone hnone2
    simp [findExifDateTime, findExifTag_eq_find, hnone, hnone2]

/-! ## Extensions -/

theorem toNat_ofNat_small (n : Nat) (h : n < 55296) : (Char.ofNat n).toNat = n := by
  have hv : n.isValidChar := Or.inl h
  unfold Char.ofNat
  rw [dif_pos hv]
  rfl

theorem lowerRune_upper (table : Char → Char) (c : Char)
    (h : 'A'.toNat ≤ c.toNat ∧ c.toNat ≤ 'Z'.toNat) : lowerRune table c ≠ c := by
  have h1 : (65 : Nat) ≤ c.toNat := h.1
  have h2 : c.toNat ≤ 90 := h.2
  have hle : c.toNat ≤ 127 := by omega
  intro heq
  have := congrArg Char.toNat heq
  simp only [lowerRune, hle, h, and_self, if_true] at this
  rw [toNat_ofNat_small _ (by omega)] at this
  omega

theorem stringsToLower_fixed (table : Char → Char) (s : String)
    (h : ∀ c ∈ s.data, lowerRune table c = c) : stringsToLower table s = s := by
  have : s.data.map (lowerRune table) = s.data := by
    conv_rhs => rw [← List.map_id s.data]
    exact List.map_congr_left h
  simp [stringsToLower, this]

theorem extensionFor_lower (table : Char → Char)
    (hidem : ∀ c, lowerRune table (lowerRune table c) = lowerRune table c) (p : String) :
    ∀ c ∈ (extensionFor table p).data, lowerRune table c = c := by
  intro c hc
  unfold extensionFor at hc
  simp only at hc
  split at hc
  · have hmem : c = '.' ∨ c = 'j' ∨ c = 'p' ∨ c = 'e' ∨ c = 'g' := by
      have : (".jpeg" : String).data = ['.', 'j', 'p', 'e', 'g'] := rfl
      rw [this] at hc
      simpa using hc
    rcases hmem with h | h | h | h | h <;> subst h <;> rfl
  · simp only [stringsToLower, List.mem_map] at hc
    obtain ⟨a, _, rfl⟩ := hc
    exact hidem a

/-- C9: `extensionFor p` is `.jpeg` when the lower-cased extension of `p` is
`.jpg` or `.jpeg` and the lower-cased extension otherwise; the result has no
upper-case letter (no rune that lower-casing changes, in particular none of
`A`..`Z`), and a name whose extension is the result is given the same result.
The Unicode table is any rune map whose lower-casing is idempotent. -/
theorem extensionFor_normalises (table : Char → Char)
    (hidem : ∀ c, lowerRune table (lowerRune table c) = lowerRune table c) (p : String) :
    (stringsToLower table (filepathExt p) = ".jpg" ∨
        stringsToLower table (filepathExt p) = ".jpeg" → extensionFor table p = ".jpeg") ∧
    (¬ (stringsToLower table (filepathExt p) = ".jpg" ∨
        stringsToLower table (filepathExt p) = ".jpeg") →
      extensionFor table p = stringsToLower table (filepathExt p)) ∧
    (∀ c ∈ (extensionFor table p).data,
      lowerRune table c = c ∧ ¬ ('A'.toNat ≤ c.toNat ∧ c.toNat ≤ 'Z'.toNat)) ∧
    (∀ q, filepathExt q = extensionFor table p →
      extensionFor table q = extensionFor table p) := by
  have hlow := extensionFor_lower table hidem p
  refine ⟨?_, ?_, ?_, ?_⟩
  · intro h
    simp [extensionFor, h]
  · intro h
    simp [extensionFor, h]
  · intro c hc
    refine ⟨hlow c hc, ?_⟩
    intro hup
    exact lowerRune_upper table c hup (hlow c hc)
  · intro q hq
    have hfix : stringsToLower table (extensionFor table p) = extensionFor table p :=
      stringsToLower_fixed table _ hlow
    have hne : extensionFor table p ≠ ".jpg" := by
      unfold extensionFor
      simp only
      split
      · decide
      · rename_i h
        exact fun h2 => h (Or.inl h2)
    show (let ext := stringsToLower table (filepathExt q);
      if ext = ".jpg" ∨ ext = ".jpeg" then ".jpeg" else ext) = extensionFor table p
    simp only [hq, hfix]
    split
    · rename_i h
      rcases h with h | h
      · exact absurd h hne
      · exact h.symm
    · rfl

theorem extensionFor_examples :
    extensionFor id "a.JPG" = ".jpeg" ∧ extensionFor id "a.Jpeg" = ".jpeg" ∧
    extensionFor id "dir.d/clip.MP4" = ".mp4" ∧ extensionFor id "noext" = "" := by
  decide

theorem lowerRune_id_idem (c : Char) : lowerRune id (lowerRune id c) = lowerRune id c := by
  by_cases h1 : c.toNat ≤ 127
  · by_cases h2 : 65 ≤ c.toNat ∧ c.toNat ≤ 90
    · have hv := toNat_ofNat_small (c.toNat + 32) (by omega)
      have hl : lowerRune id c = Char.ofNat (c.toNat + 32) := by
        simp [lowerRune, h1, h2]
      rw [hl]
      have h3 : (Char.ofNat (c.toNat + 32)).toNat ≤ 127 := by omega
      have h4 : ¬ (65 ≤ (Char.ofNat (c.toNat + 32)).toNat ∧
          (Char.ofNat (c.toNat + 32)).toNat ≤ 90) := by omega
      simp [lowerRune, h3, h4]
    · have hl : lowerRune id c = c := by
        simp only [lowerRune, h1, if_true]
        exact if_neg h2
      rw [hl, hl]
  · have hl : lowerRune id c = c := by
      simp [lowerRune, h1]
    rw [hl, hl]

/-- Witness of C9 at the path `a.JPG`, with a table that leaves the runes
above `0x7F` alone. -/
theorem extensionFor_normalises_witness :
    extensionFor id "a.JPG" = ".jpeg" ∧
    (∀ c ∈ (extensionFor id "a.JPG").data,
      lowerRune id c = c ∧ ¬ ('A'.toNat ≤ c.toNat ∧ c.toNat ≤ 'Z'.toNat)) ∧
    extensionFor id "b.jpeg" = extensionFor id "a.JPG" :=
  ⟨(extensionFor_normalises id lowerRune_id_idem "a.JPG").1 (by decide),
   (extensionFor_normalises id lowerRune_id_idem "a.JPG").2.2.1,
   (extensionFor_normalises id lowerRune_id_idem "a.JPG").2.2.2 "b.jpeg" (by decide)⟩

/-! ## `appleEpochToTime` -/

theorem appleEpochToTime_after_1970 (loc : Location) (e : Nat)
    (h1 : 2082844800 ≤ e) (h2 : e < 2 ^ 32) :
    (appleEpochToTime loc e).sec = (e : Int) - 2082844800 := by
  simp only [appleEpochToTime, timeUnix]
  omega

theorem appleEpochToTime_example (loc : Location) :
    (appleEpochToTime loc 3896208000).sec = 1813363200 := by
  simp only [appleEpochToTime, timeUnix]
  decide

/-- C5, at the creation time `0`: the subtraction wraps on `uint32`, the
instant `appleEpochToTime 0` has Unix time `2212122496`, not `0 - 2082844800`. -/
theorem appleEpochToTime_zero_wraps :
    (appleEpochToTime utcLoc 0).sec = 2212122496 ∧
    (appleEpochToTime utcLoc 0).sec ≠ (0 : Int) - 2082844800 := by
  decide

theorem appleEpochToTime_range (loc : Location) (e : Nat) :
    0 ≤ (appleEpochToTime loc e).sec ∧ (appleEpochToTime loc e).sec < 2 ^ 32 := by
  simp only [appleEpochToTime, timeUnix]
  omega

theorem appleEpochToTime_not_zero (loc : Location) (e : Nat) :
    (appleEpochToTime loc e).IsZero = false := by
  have h := appleEpochToTime_range loc e
  simp only [Time.IsZero, unixToInternal]
  have : ¬ ((appleEpochToTime loc e).sec + 62135596800 = 0) := by omega
  simp [this]

/-! ## The digest stream -/

theorem take_append_read (l : List Byte) (pos k : Nat) :
    l.take pos ++ (l.drop pos).take k = l.take (pos + ((l.drop pos).take k).length) := by
  rw [List.take_add]
  congr 1
  rw [List.length_take, List.take_eq_take]
  simp

/-- Whatever a reader procedure does with the tee reader, the hasher has
been given exactly the bytes of the file before the read offset. -/
theorem Scan.run_written {α : Type} (s : Scan α) (f : Reader) (h : Hasher)
    (hinv : h.written = f.data.take f.pos) :
    (s.run f h).2.2.written = (s.run f h).2.1.data.take (s.run f h).2.1.pos ∧
    (s.run f h).2.1.data = f.data := by
  induction s generalizing f h with
  | done a => exact ⟨hinv, rfl⟩
  | read k next ih =>
    simp only [Scan.run]
    have hstep : (h.write (f.read k).1).written = (f.read k).2.data.take (f.read k).2.pos := by
      simp only [Hasher.write, Reader.read, hinv]
      exact take_append_read f.data f.pos k
    have := ih (f.read k).1 (f.read k).2 (h.write (f.read k).1) hstep
    exact ⟨this.1, this.2.trans rfl⟩

theorem scan_then_copy {α : Type} (s : Scan α) (data : List Byte) :
    (ioCopy (s.run ⟨data, 0⟩ Hasher.new).2.2 (s.run ⟨data, 0⟩ Hasher.new).2.1).1.written
      = data := by
  have h := Scan.run_written s ⟨data, 0⟩ Hasher.new (by simp [Hasher.new])
  simp only [ioCopy, Hasher.write, h.1, h.2, List.take_append_drop]

/-- When `guessNewImagePath` derives a path, that path is built from the
digest of the whole content of the file. -/
theorem guessNewImagePath_path (E : Env) (fs : FS) (p : Path) (data : List Byte) (np : String)
    (hopen : openFile fs p = Except.ok data)
    (hres : guessNewImagePath E fs p = Go.ret (Except.ok np)) (hne : np ≠ "") :
    ∃ t, np = canonicalPath "Pictures" t (E.hashSum data)
      (extensionFor E.lowerTable (pathString p)) := by
  unfold guessNewImagePath at hres
  rw [hopen] at hres
  simp only at hres
  have hcopy := scan_then_copy E.exifSearch data
  revert hres hcopy
  generalize E.exifSearch.run ⟨data, 0⟩ Hasher.new = r
  obtain ⟨res, f, h⟩ := r
  intro hres hcopy
  cases res with
  | error e =>
    simp only at hres
    split at hres
    · injection hres with h1; injection h1 with h2; exact absurd h2.symm hne
    · injection hres with h1; cases h1
  | ok b =>
    simp only at hres
    split at hres
    · injection hres with h1; cases h1
    · split at hres
      · cases hres
      · injection hres with h1; injection h1 with h2; exact absurd h2.symm hne
      · split at hres
        · injection hres with h1; injection h1 with h2; exact absurd h2.symm hne
        · rename_i t _
          injection hres with h1
          injection h1 with h2
          refine ⟨t, ?_⟩
          rw [← h2]
          simp only [Hasher.sum] at hcopy ⊢
          rw [hcopy]

/-- C2: whatever number of bytes the EXIF scan pulled through the tee reader
(the read offset it leaves), the hasher has received the first bytes of the
file up to that offset, and after the final copy exactly the whole content,
in order; the digest is that of the whole file, and it is the digest in the
path that `guessNewImagePath` derives. -/
theorem image_digest_covers_whole_file (E : Env) (data : List Byte) :
    (E.exifSearch.run ⟨data, 0⟩ Hasher.new).2.2.written
      = data.take (E.exifSearch.run ⟨data, 0⟩ Hasher.new).2.1.pos ∧
    (ioCopy (E.exifSearch.run ⟨data, 0⟩ Hasher.new).2.2
      (E.exifSearch.run ⟨data, 0⟩ Hasher.new).2.1).1.written = data ∧
    (ioCopy (E.exifSearch.run ⟨data, 0⟩ Hasher.new).2.2
      (E.exifSearch.run ⟨data, 0⟩ Hasher.new).2.1).1.sum E.hashSum = E.hashSum data ∧
    (∀ fs p np, openFile fs p = Except.ok data →
      guessNewImagePath E fs p = Go.ret (Except.ok np) → np ≠ "" →
      ∃ t, np = canonicalPath "Pictures" t (E.hashSum data)
        (extensionFor E.lowerTable (pathString p))) := by
  have h := Scan.run_written E.exifSearch ⟨data, 0⟩ Hasher.new (by simp [Hasher.new])
  refine ⟨?_, scan_then_copy E.exifSearch data, ?_, ?_⟩
  · rw [h.1, h.2]
  · simp only [Hasher.sum, scan_then_copy E.exifSearch data]
  · intro fs p np hopen hres hne
    exact guessNewImagePath_path E fs p data np hopen hres hne

/-! ## Calendar arithmetic -/

/-- Years since the absolute zero year, for a year that `int64` holds with
room to spare. -/
theorem daysSinceEpoch_eq (year : Int) (h0 : -1000000 ≤ year) (h1 : year ≤ 1000000) :
    ∃ y : Nat, (y : Int) = year + 292277022399 ∧
      daysSinceEpoch year = 146097 * (y / 400) + 36524 * (y % 400 / 100) +
        1461 * (y % 100 / 4) + 365 * (y % 4) := by
  refine ⟨(year + 292277022399).toNat, by omega, ?_⟩
  have hw : wrapU64 (year - absoluteZeroYear) = (year + 292277022399).toNat := by
    simp only [wrapU64, absoluteZeroYear]
    omega
  have hb : (year + 292277022399).toNat < 292278022400 := by omega
  simp only [daysSinceEpoch, hw, daysPer400Years, daysPer100Years, daysPer4Years]
  generalize (year + 292277022399).toNat = y at hb ⊢
  have e1 : y - 400 * (y / 400) = y % 400 := by omega
  have e2 : y % 400 - 100 * (y % 400 / 100) = y % 100 := by omega
  have e3 : y % 100 - 4 * (y % 100 / 4) = y % 4 := by omega
  rw [e1, e2, e3]
  apply Nat.mod_eq_of_lt
  omega

theorem absYearDay_cycles (q a b c yday tod : Nat) (ha : a ≤ 3) (hb : b ≤ 24) (hc : c ≤ 3)
    (htod : tod < 86400)
    (hyd : yday < 365 ∨ (yday = 365 ∧ c = 3 ∧ (b ≠ 24 ∨ a = 3))) :
    absYearDay ((146097 * q + 36524 * a + 1461 * b + 365 * c + yday) * 86400 + tod) =
      (wrapI64 (((400 * q + 100 * a + 4 * b + c : Nat) : Int) + absoluteZeroYear), yday) := by
  simp only [absYearDay, secondsPerDay, daysPer400Years, daysPer100Years, daysPer4Years]
  have h1 : ((146097 * q + 36524 * a + 1461 * b + 365 * c + yday) * 86400 + tod) / 86400
      = 146097 * q + 36524 * a + 1461 * b + 365 * c + yday := by omega
  rw [h1]
  have h2 : (146097 * q + 36524 * a + 1461 * b + 365 * c + yday) / 146097 = q := by omega
  rw [h2]
  have h3 : 146097 * q + 36524 * a + 1461 * b + 365 * c + yday - 146097 * q
      = 36524 * a + 1461 * b + 365 * c + yday := by omega
  rw [h3]
  have h4 : (36524 * a + 1461 * b + 365 * c + yday) / 36524
      - (36524 * a + 1461 * b + 365 * c + yday) / 36524 / 4 = a := by
    rcases hyd with h | ⟨h, hc3, hba | hba⟩
    · have : (36524 * a + 1461 * b + 365 * c + yday) / 36524 = a := by omega
      rw [this]; omega
    · have : (36524 * a + 1461 * b + 365 * c + yday) / 36524 = a := by omega
      rw [this]; omega
    · by_cases hb24 : b = 24
      · have : (36524 * a + 1461 * b + 365 * c + yday) / 36524 = 4 := by omega
        rw [this]; omega
      · have : (36524 * a + 1461 * b + 365 * c + yday) / 36524 = a := by omega
        rw [this]; omega
  rw [h4]
  have h5 : 36524 * a + 1461 * b + 365 * c + yday - 36524 * a = 1461 * b + 365 * c + yday := by
    omega
  rw [h5]
  have h6 : (1461 * b + 365 * c + yday) / 1461 = b := by omega
  rw [h6]
  have h7 : 1461 * b + 365 * c + yday - 1461 * b = 365 * c + yday := by omega
  rw [h7]
  have h8 : (365 * c + yday) / 365 - (365 * c + yday) / 365 / 4 = c := by
    rcases hyd with h | ⟨h, hc3, _⟩
    · have : (365 * c + yday) / 365 = c := by omega
      rw [this]; omega
    · have : (365 * c + yday) / 365 = 4 := by omega
      rw [this]; omega
  rw [h8]
  have h9 : 365 * c + yday - 365 * c = yday := by omega
  rw [h9]

theorem monthDayOf_ydayOf_fin : ∀ leap : Bool, ∀ m : Fin 13, ∀ d : Fin 32,
    1 ≤ m.val → 1 ≤ d.val → d.val ≤ monthLength leap m.val →
      monthDayOf leap (ydayOf leap m.val d.val) = (m.val, d.val) ∧
      ydayOf leap m.val d.val < 365 + (if leap then 1 else 0) := by
  decide

theorem ydayOf_monthDayOf_fin : ∀ leap : Bool, ∀ yd : Fin 366,
    yd.val < 365 + (if leap then 1 else 0) →
      ydayOf leap (monthDayOf leap yd.val).1 (monthDayOf leap yd.val).2 = yd.val ∧
      1 ≤ (monthDayOf leap yd.val).1 ∧ (monthDayOf leap yd.val).1 ≤ 12 ∧
      1 ≤ (monthDayOf leap yd.val).2 ∧
      (monthDayOf leap yd.val).2 ≤ monthLength leap (monthDayOf leap yd.val).1 := by
  decide

theorem monthDayOf_ydayOf (leap : Bool) (m d : Nat) (hm1 : 1 ≤ m) (hm2 : m ≤ 12)
    (hd1 : 1 ≤ d) (hd2 : d ≤ monthLength leap m) :
    monthDayOf leap (ydayOf leap m d) = (m, d) ∧
    ydayOf leap m d < 365 + (if leap then 1 else 0) := by
  have hd3 : d < 32 := by
    have : monthLength leap m ≤ 31 := by
      unfold monthLength
      split
      · split <;> omega
      · split <;> omega
    omega
  exact monthDayOf_ydayOf_fin leap ⟨m, by omega⟩ ⟨d, hd3⟩ hm1 hd1 hd2

theorem norm_inRange (hi lo base : Int) (h0 : 0 ≤ lo) (h1 : lo < base) :
    norm hi lo base = (hi, lo) := by
  simp [norm, not_lt.mpr h0, not_le.mpr h1]

theorem isLeap_iff (year : Int) :
    isLeap year = true ↔ year % 4 = 0 ∧ (year % 100 ≠ 0 ∨ year % 400 = 0) := by
  simp [isLeap]

/-- The cycle counts of a year and the leap rule in terms of them. -/
theorem year_cycles (year : Int) (h0 : -1000000 ≤ year) (h1 : year ≤ 1000000) :
    ∃ q a b c : Nat, a ≤ 3 ∧ b ≤ 24 ∧ c ≤ 3 ∧ q ≤ 730695056 ∧
      ((400 * q + 100 * a + 4 * b + c : Nat) : Int) = year + 292277022399 ∧
      daysSinceEpoch year = 146097 * q + 36524 * a + 1461 * b + 365 * c ∧
      (isLeap year = true ↔ c = 3 ∧ (b ≠ 24 ∨ a = 3)) := by
  obtain ⟨y, hy, hd⟩ := daysSinceEpoch_eq year h0 h1
  refine ⟨y / 400, y % 400 / 100, y % 100 / 4, y % 4, by omega, by omega, by omega, by omega,
    by omega, hd, ?_⟩
  rw [isLeap_iff]
  omega

theorem timeDateUTC_locabs (Y M D h mi s nsec : Nat) (hY : Y ≤ 9999)
    (hM1 : 1 ≤ M) (hM2 : M ≤ 12) (hD1 : 1 ≤ D) (hD2 : D ≤ monthLength (isLeap Y) M)
    (hh : h < 24) (hmi : mi < 60) (hs : s < 60) (hn : nsec < 1000000000) :
    (timeDateUTC Y M D h mi s nsec).locabs =
      (daysSinceEpoch Y + ydayOf (isLeap Y) M D) * 86400 + (h * 3600 + mi * 60 + s) := by
  obtain ⟨q, a, b, c, ha, hb, hc, hq, hy, hd, hleap⟩ := year_cycles (Y : Int) (by omega) (by omega)
  have hyd := (monthDayOf_ydayOf (isLeap Y) M D hM1 hM2 hD1 hD2).2
  have e1 : norm (Y : Int) ((M : Int) - 1) 12 = ((Y : Int), (M : Int) - 1) :=
    norm_inRange _ _ _ (by omega) (by omega)
  have e2 : norm (s : Int) (nsec : Int) 1000000000 = ((s : Int), (nsec : Int)) :=
    norm_inRange _ _ _ (by omega) (by omega)
  have e3 : norm (mi : Int) (s : Int) 60 = ((mi : Int), (s : Int)) :=
    norm_inRange _ _ _ (by omega) (by omega)
  have e4 : norm (h : Int) (mi : Int) 60 = ((h : Int), (mi : Int)) :=
    norm_inRange _ _ _ (by omega) (by omega)
  have e5 : norm (D : Int) (h : Int) 24 = ((D : Int), (h : Int)) :=
    norm_inRange _ _ _ (by omega) (by omega)
  simp only [timeDateUTC, e1, e2, e3, e4, e5, Time.locabs, utcLoc]
  have em : ((M : Int) - 1 + 1 - 1).toNat = M - 1 := by omega
  have e3 : ((M : Int) - 1 + 1 ≥ 3) ↔ M ≥ 3 := by omega
  rw [em]
  simp only [ydayOf, e3] at hyd ⊢
  generalize daysBefore.getD (M - 1) 0 = T at hyd ⊢
  rw [hd]
  simp only [wrapU64, wrapI64, secondsPerDay, internalToAbsolute, unixToInternal]
  by_cases hl : isLeap (Y : Int) = true <;> by_cases h3 : M ≥ 3 <;>
    simp only [hl, h3, and_self, and_true, and_false, if_true, if_false, true_and, false_and,
      Bool.false_eq_true] at hyd ⊢ <;> omega

theorem absClock_of (d h mi s : Nat) (hh : h < 24) (hmi : mi < 60) (hs : s < 60) :
    absClock (d * 86400 + (h * 3600 + mi * 60 + s)) = (h, mi, s) := by
  simp only [absClock, secondsPerDay, Prod.mk.injEq]
  have e1 : (d * 86400 + (h * 3600 + mi * 60 + s)) % 86400 = h * 3600 + mi * 60 + s := by omega
  rw [e1]
  have e2 : (h * 3600 + mi * 60 + s) / 3600 = h := by omega
  rw [e2]
  have e3 : h * 3600 + mi * 60 + s - h * 3600 = mi * 60 + s := by omega
  rw [e3]
  have e4 : (mi * 60 + s) / 60 = mi := by omega
  rw [e4]
  refine ⟨rfl, rfl, by omega⟩

theorem absDate_of_civil (Y M D tod : Nat) (hY : Y ≤ 9999)
    (hM1 : 1 ≤ M) (hM2 : M ≤ 12) (hD1 : 1 ≤ D) (hD2 : D ≤ monthLength (isLeap Y) M)
    (htod : tod < 86400) :
    absDate ((daysSinceEpoch Y + ydayOf (isLeap Y) M D) * 86400 + tod) = ((Y : Int), M, D) := by
  obtain ⟨q, a, b, c, ha, hb, hc, hq, hy, hd, hleap⟩ := year_cycles (Y : Int) (by omega) (by omega)
  obtain ⟨hmd, hyd⟩ := monthDayOf_ydayOf (isLeap Y) M D hM1 hM2 hD1 hD2
  have hyd2 : ydayOf (isLeap Y) M D < 365 ∨
      (ydayOf (isLeap Y) M D = 365 ∧ c = 3 ∧ (b ≠ 24 ∨ a = 3)) := by
    by_cases hl : isLeap (Y : Int) = true
    · rw [if_pos hl] at hyd
      have := hleap.mp hl
      omega
    · rw [if_neg hl] at hyd
      omega
  have hyear := absYearDay_cycles q a b c (ydayOf (isLeap Y) M D) tod ha hb hc htod hyd2
  have hw : wrapI64 (((400 * q + 100 * a + 4 * b + c : Nat) : Int) + absoluteZeroYear) = (Y : Int) := by
    simp only [wrapI64, absoluteZeroYear]
    omega
  rw [hw, ← hd] at hyear
  simp only [absDate, hyear, hmd]

/-! ## Digits: `appendInt` and the elements of `Parse` -/

theorem digitChar_toNat (n : Nat) : (digitChar n).toNat = 48 + n % 10 :=
  toNat_ofNat_small _ (by omega)

theorem digitVal_digitChar (n : Nat) : digitVal (digitChar n) = n % 10 := by
  simp only [digitVal, digitChar_toNat]
  omega

theorem digitChar_ne (n : Nat) (c : Char) (hc : c.toNat < 48 ∨ 57 < c.toNat) :
    digitChar n ≠ c := by
  intro h
  have := congrArg Char.toNat h
  rw [digitChar_toNat] at this
  omega

theorem isDigit_cons_digitChar (n : Nat) (rest : List Char) :
    isDigit (digitChar n :: rest) 0 = true := by
  have h := digitChar_toNat n
  have h0 : '0'.toNat = 48 := rfl
  have h9 : '9'.toNat = 57 := rfl
  simp only [isDigit, List.get?, h, h0, h9, Bool.and_eq_true, decide_eq_true_eq]
  omega

theorem isDigit_second_digitChar (c : Char) (n : Nat) (rest : List Char) :
    isDigit (c :: digitChar n :: rest) 1 = true := by
  have h := digitChar_toNat n
  have h0 : '0'.toNat = 48 := rfl
  have h9 : '9'.toNat = 57 := rfl
  simp only [isDigit, List.get?, h, h0, h9, Bool.and_eq_true, decide_eq_true_eq]
  omega

theorem appendInt_two (n : Nat) (h : n < 100) : appendInt (n : Int) 2 = pad2 n := by
  have h1 : ¬ ((n : Int) < 0) := by omega
  simp [appendInt, pad2, h, h1]

theorem appendInt_four (n : Nat) (h : n < 10000) : appendInt (n : Int) 4 = pad4 n := by
  have h1 : ¬ ((n : Int) < 0) := by omega
  simp [appendInt, pad4, h, h1]

theorem getnum_pad2 (n : Nat) (h : n < 100) (fixed : Bool) (rest : List Char) :
    getnum (pad2 n ++ rest) fixed = some (n, rest) := by
  simp only [pad2, List.cons_append, List.nil_append, getnum, isDigit_cons_digitChar,
    isDigit_second_digitChar, Bool.not_true, Bool.false_eq_true, if_false, digitVal_digitChar]
  congr 2
  omega

theorem parseYear_pad4 (n : Nat) (h : n < 10000) (rest : List Char) :
    parseYear (pad4 n ++ rest) = some (n, rest) := by
  have hv : digitsVal (pad4 n) = n := by
    simp only [digitsVal, pad4, List.foldl, digitVal_digitChar]
    omega
  simp only [parseYear, pad4, List.cons_append, List.nil_append, List.length_cons,
    isDigit_cons_digitChar, List.take, List.drop, List.all_cons, List.all_nil]
  simp only [pad4] at hv
  simp [hv]

theorem skipChar_cons (c : Char) (rest : List Char) : skipChar (c :: rest) c = some rest := by
  simp [skipChar]

theorem skipSpace_before_digit (n : Nat) (rest : List Char) :
    skipSpace (' ' :: digitChar n :: rest) = some (digitChar n :: rest) := by
  have hne : digitChar n ≠ ' ' := digitChar_ne n ' ' (Or.inl (by decide))
  have hc : cutspace (digitChar n :: rest) = digitChar n :: rest := by
    unfold cutspace
    split
    · rename_i heq
      injection heq with h1 _
      exact absurd h1 hne
    · rfl
  simp only [skipSpace]
  rw [if_neg (by simp)]
  show some (cutspace (' ' :: digitChar n :: rest)) = _
  rw [show cutspace (' ' :: digitChar n :: rest) = cutspace (digitChar n :: rest) from rfl, hc]

theorem daysIn_eq_monthLength (m : Nat) (year : Int) (h1 : 1 ≤ m) (h2 : m ≤ 12) :
    daysIn m year = monthLength (isLeap year) m := by
  interval_cases m <;> cases hl : isLeap year <;> simp [daysIn, monthLength, daysBefore, hl]

theorem isLeap_natCast (Y : Nat) : isLeap (Y : Int) = gregorianLeap Y := by
  have h : (isLeap (Y : Int) = true) ↔ (gregorianLeap Y = true) := by
    rw [isLeap_iff]
    simp only [gregorianLeap, decide_eq_true_eq]
    omega
  cases h1 : isLeap (Y : Int) <;> cases h2 : gregorianLeap Y <;> simp_all

theorem timeParse_exifDateString (Y M D h mi s : Nat) (hv : validDateTime Y M D h mi s) :
    timeParse (exifDateString Y M D h mi s) = some (timeDateUTC Y M D h mi s 0) := by
  obtain ⟨hY, hM1, hM2, hD1, hD2, hh, hmi, hs⟩ := hv
  have hD3 : D < 100 := by
    have : monthLength (gregorianLeap Y) M ≤ 31 := by
      unfold monthLength
      split
      · split <;> omega
      · split <;> omega
    omega
  have hdays : daysIn M (Y : Int) = monthLength (gregorianLeap Y) M := by
    rw [daysIn_eq_monthLength M _ hM1 hM2, isLeap_natCast]
  have hM4 : ¬ (M ≤ 0 ∨ 12 < M) := by omega
  have hh4 : ¬ (24 ≤ h) := by omega
  have hmi4 : ¬ (60 ≤ mi) := by omega
  have hs4 : ¬ (60 ≤ s) := by omega
  have hD4 : ¬ (D < 1 ∨ D > daysIn M (Y : Int)) := by rw [hdays]; omega
  have hsp : ∀ rest, skipSpace (' ' :: (pad2 h ++ rest)) = some (pad2 h ++ rest) := by
    intro rest
    exact skipSpace_before_digit _ _
  have hfrac : parseFraction [] = (0, []) := rfl
  have hsec := getnum_pad2 s (by omega) true []
  rw [List.append_nil] at hsec
  simp only [timeParse, exifDateString, List.append_assoc, List.singleton_append,
    List.cons_append, List.nil_append, parseYear_pad4 Y (by omega), skipChar_cons,
    getnum_pad2 M (by omega),
    getnum_pad2 D hD3, getnum_pad2 h (by omega), getnum_pad2 mi (by omega), hsp, hM4, hh4,
    hmi4, hs4, if_false, hsec, hfrac, List.length_nil, ne_eq, not_true_eq_false, hD4]
  rfl

theorem format_of_civil (t : Time) (Y M D h mi s : Nat) (hY : Y ≤ 9999) (hM : M ≤ 12)
    (hD : D ≤ 31) (hh : h < 24) (hmi : mi < 60) (hs : s < 60)
    (hdate : absDate t.locabs = ((Y : Int), M, D)) (hclock : absClock t.locabs = (h, mi, s)) :
    formatYearMonth t = ⟨pad4 Y ++ ['-'] ++ pad2 M⟩ ∧
    formatStamp t = ⟨pad4 Y ++ pad2 M ++ pad2 D ++ ['-'] ++ pad2 h ++ pad2 mi ++ pad2 s⟩ := by
  simp only [formatYearMonth, formatStamp, hdate, hclock,
    appendInt_four Y (by omega), appendInt_two M (by omega), appendInt_two D (by omega),
    appendInt_two h (by omega), appendInt_two mi (by omega), appendInt_two s (by omega),
    and_self]

theorem monthLength_le (leap : Bool) (m : Nat) : monthLength leap m ≤ 31 := by
  unfold monthLength
  split
  · split <;> omega
  · split <;> omega

/-- Parsing a valid EXIF date value and formatting the result gives back its
digits. -/
theorem parse_then_format (Y M D h mi s : Nat) (hv : validDateTime Y M D h mi s) :
    ∃ t, timeParse (exifDateString Y M D h mi s) = some t ∧
      formatYearMonth t = ⟨pad4 Y ++ ['-'] ++ pad2 M⟩ ∧
      formatStamp t = ⟨pad4 Y ++ pad2 M ++ pad2 D ++ ['-'] ++ pad2 h ++ pad2 mi ++ pad2 s⟩ := by
  refine ⟨timeDateUTC Y M D h mi s 0, timeParse_exifDateString Y M D h mi s hv, ?_⟩
  obtain ⟨hY, hM1, hM2, hD1, hD2, hh, hmi, hs⟩ := hv
  rw [← isLeap_natCast] at hD2
  have hD3 := monthLength_le (isLeap (Y : Int)) M
  have habs := timeDateUTC_locabs Y M D h mi s 0 hY hM1 hM2 hD1 hD2 hh hmi hs (by omega)
  have habs0 : (timeDateUTC (Y : Int) M D h mi s 0).locabs =
      (daysSinceEpoch Y + ydayOf (isLeap Y) M D) * 86400 + (h * 3600 + mi * 60 + s) := habs
  apply format_of_civil _ Y M D h mi s hY hM2 (by omega) hh hmi hs
  · rw [habs0]
    exact absDate_of_civil Y M D _ hY hM1 hM2 hD1 hD2 (by omega)
  · rw [habs0]
    exact absClock_of _ h mi s hh hmi hs

theorem hexEncode_length (bs : List Byte) : (hexEncode bs).data.length = 2 * bs.length := by
  simp only [hexEncode]
  induction bs with
  | nil => rfl
  | cons b rest ih =>
    simp only [List.flatMap_cons, List.length_append, List.length_cons, List.length_nil, ih]
    omega

/-- C1: for a file whose EXIF date value is `YYYY:MM:DD HH:MM:SS` with the
fields of a valid calendar date-time, `guessNewImagePath` derives exactly
`Pictures/YYYY-MM/YYYYMMDD-HHMMSS-<hex digest><extensionFor p>`, with the
digits of the value and the 64 hexadecimal characters of the digest of the
file. -/
theorem guessNewImagePath_of_valid_exif (E : Env) (fs : FS) (p : Path)
    (data raw : List Byte) (entries : List ExifTag) (Y M D h mi s : Nat)
    (hopen : openFile fs p = Except.ok data)
    (hscan : (E.exifSearch.run ⟨data, 0⟩ Hasher.new).1 = Except.ok raw)
    (hdec : E.exifDecode raw = Except.ok entries)
    (hfind : findExifDateTime entries = Go.ret (exifDateString Y M D h mi s, true))
    (hvalid : validDateTime Y M D h mi s) :
    guessNewImagePath E fs p = Go.ret (Except.ok
      ("Pictures/" ++ ⟨pad4 Y⟩ ++ "-" ++ ⟨pad2 M⟩ ++ "/" ++ ⟨pad4 Y ++ pad2 M ++ pad2 D⟩ ++ "-" ++
        ⟨pad2 h ++ pad2 mi ++ pad2 s⟩ ++ "-" ++ hexEncode (E.hashSum data).bytes ++
        extensionFor E.lowerTable (pathString p))) ∧
    (hexEncode (E.hashSum data).bytes).data.length = 64 := by
  refine ⟨?_, by rw [hexEncode_length, (E.hashSum data).size]; rfl⟩
  obtain ⟨t, hparse, hym, hstamp⟩ := parse_then_format Y M D h mi s hvalid
  have hcopy := scan_then_copy E.exifSearch data
  unfold guessNewImagePath
  rw [hopen]
  simp only
  revert hscan hcopy
  generalize E.exifSearch.run ⟨data, 0⟩ Hasher.new = r
  obtain ⟨res, f, hh⟩ := r
  intro hscan hcopy
  simp only at hscan hcopy
  subst hscan
  simp only [hdec, hfind, hparse, Hasher.sum, hcopy, canonicalPath, hym, hstamp]
  congr 2

/-! ## Witnesses in the concrete environment -/

/-- Witness of C8: the first `DateTimeOriginal` wins over an earlier
`DateTime` and a later `DateTimeOriginal`. -/
theorem findExifDateTime_first_match_witness :
    (∀ x ∈ demoTags, ∃ s, x.Value = TagValue.str s) ∧
    findExifDateTime demoTags = Go.ret ("2023:06:15 10:30:00", true) := by
  have hstr : ∀ x ∈ demoTags, ∃ s, x.Value = TagValue.str s := by
    intro x hx
    simp only [demoTags, List.mem_cons, List.mem_singleton, List.mem_nil_iff, or_false] at hx
    rcases hx with rfl | rfl | rfl <;> exact ⟨_, rfl⟩
  refine ⟨hstr, ?_⟩
  obtain ⟨s, hs, hres⟩ := (findExifDateTime_first_match demoTags hstr).1
    ⟨"DateTimeOriginal", TagValue.str "2023:06:15 10:30:00"⟩ (by decide)
  injection hs with hs
  rw [hres, ← hs]

/-- Witness of C1, the example of the specification: a `.jpeg` file dated
`2023:06:15 10:30:00` whose digest starts `ab12`. -/
theorem guessNewImagePath_of_valid_exif_witness :
    validDateTime 2023 6 15 10 30 0 ∧
    guessNewImagePath demoEnv demoFS ["in", "a.jpeg"] = Go.ret (Except.ok
      "Pictures/2023-06/20230615-103000-ab1227c76707a747e78727c76707a747e78727c76707a747e78727c76707a747.jpeg") := by
  have hv : validDateTime 2023 6 15 10 30 0 := by
    simp [validDateTime, monthLength, gregorianLeap]
  refine ⟨hv, ?_⟩
  have h := (guessNewImagePath_of_valid_exif demoEnv demoFS ["in", "a.jpeg"] demoPhoto
    (bytesOf "2023:06:15 10:30:00")
    [⟨"Make", TagValue.str "demo"⟩, ⟨"DateTimeOriginal", TagValue.str "2023:06:15 10:30:00"⟩]
    2023 6 15 10 30 0 rfl rfl rfl (by decide) hv).1
  rw [h]
  exact congrArg (fun x => Go.ret (Except.ok x)) (by decide)

theorem demoGuess_a :
    guessNewImagePath demoEnv demoFS ["in", "a.jpeg"] = Go.ret (Except.ok
      "Pictures/2023-06/20230615-103000-ab1227c76707a747e78727c76707a747e78727c76707a747e78727c76707a747.jpeg") := by
  decide

/-- Witness of C2 in the demo environment: the scan stops after 21 of the 26
bytes of the picture, the digest is that of all 26. -/
theorem image_digest_covers_whole_file_witness :
    (demoEnv.exifSearch.run ⟨demoPhoto, 0⟩ Hasher.new).2.1.pos = 21 ∧
    demoPhoto.length = 26 ∧
    (∃ t, "Pictures/2023-06/20230615-103000-ab1227c76707a747e78727c76707a747e78727c76707a747e78727c76707a747.jpeg"
      = canonicalPath "Pictures" t (demoEnv.hashSum demoPhoto)
        (extensionFor demoEnv.lowerTable (pathString ["in", "a.jpeg"]))) :=
  ⟨by decide, by decide,
    (image_digest_covers_whole_file demoEnv demoPhoto).2.2.2 demoFS ["in", "a.jpeg"] _ rfl
      demoGuess_a (by decide)⟩

/-! ## Videos -/

/-- C6, at a file whose movie header is of version 1 (its `CreationTimeV0`
is 0): `guessNewVideoPath` does not return the empty path, it derives a path
under `Videos/2040-02`, from the wrapped epoch offset. -/
theorem guessNewVideoPath_version1_header :
    demoEnv.mp4Boxes demoVideoV1 =
      BoxSeq.cons (Box.mk true (Except.ok Payload.other)
        (BoxSeq.cons (Box.mk true (Except.ok (Payload.mvhd 1 0)) BoxSeq.done) BoxSeq.done))
        BoxSeq.done ∧
    guessNewVideoPath demoEnv demoFS ["in", "sub", "v.mp4"] = Except.ok
      "Videos/2040-02/20400206-062816-ab12c6064686c6064686c6064686c6064686c6064686c6064686c6064686c606.mp4" := by
  refine ⟨rfl, ?_⟩
  have h : ∀ a b : String, a = b → (Except.ok a : Except Err String) = Except.ok b := by
    intro a b hab
    rw [hab]
  exact h _ _ (by decide)

/-! ## The second pass -/

/-- C10 as amended: on an entry delivered without a walk error the callback
of the second walk returns no error, whatever the emptiness test and the
removal do; on an entry delivered with a walk error it returns that error,
and a walk whose root cannot be examined returns that error. -/
theorem pruneStep_outcome (w : World) (p : Path) :
    (∀ info : FileInfo, (pruneStep w p (some info) none).2 = Outcome.done none) ∧
    (∀ (info : Option FileInfo) (e : Err),
      pruneStep w p info (some e) = (w, Outcome.done (some e))) ∧
    (∀ (fuel : Nat) (e : Err), stat w.fs p = Except.error e →
      filepathWalk pruneStep fuel w p = (w, Outcome.done (some e))) := by
  refine ⟨?_, ?_, ?_⟩
  · intro info
    simp only [pruneStep]
    split
    · split
      · rfl
      · split
        · split <;> rfl
        · rfl
    · rfl
  · intro info e
    rfl
  · intro fuel e h
    simp only [filepathWalk, h]
    rfl

/-- Counterexample to C10: with a single picture as the source root, the
first pass moves it, the second walk then cannot examine the root, its
callback returns the walk error and so do the second pass and `run`. -/
theorem pruneStep_walk_error_propagates :
    (filepathWalk (moveStep demoEnv ["out"]) 8 ⟨demoFS, []⟩ ["in", "a.jpeg"]).2
      = Outcome.done none ∧
    (filepathWalk pruneStep 8
        (filepathWalk (moveStep demoEnv ["out"]) 8 ⟨demoFS, []⟩ ["in", "a.jpeg"]).1
        ["in", "a.jpeg"]).2 = Outcome.done (some Err.notExist) ∧
    (run demoEnv 8 ["in", "a.jpeg"] ["out"] ⟨demoFS, []⟩).2
      = Outcome.done (some Err.notExist) ∧
    (pruneStep ⟨demoFS, []⟩ ["gone"] none (some Err.notExist)).2
      = Outcome.done (some Err.notExist) := by
  decide

/-! ## The filesystem: resolution and `MkdirAll` -/

theorem Node.get_append_dir_node (t : Node) (p q : Path) (x : Node)
    (h : t.get (p ++ q) = Except.ok x) (hq : q ≠ []) :
    ∃ entries, t.get p = Except.ok (Node.dir entries) := by
  induction p generalizing t with
  | nil =>
    cases q with
    | nil => exact absurd rfl hq
    | cons n q' =>
      cases t with
      | file d => simp [Node.get] at h
      | dir entries => exact ⟨entries, rfl⟩
  | cons n p' ih =>
    cases t with
    | file d => simp [Node.get] at h
    | dir entries =>
      simp only [List.cons_append, Node.get] at h ⊢
      cases hl : lookupEntry entries n with
      | none => simp [hl] at h
      | some child =>
        simp only [hl] at h ⊢
        exact ih child h

theorem FS.get_append_dir (fs : FS) (p q : Path) (x : Node)
    (h : fs.get (p ++ q) = Except.ok x) (hq : q ≠ []) :
    ∃ entries, fs.get p = Except.ok (Node.dir entries) :=
  Node.get_append_dir_node _ p q x h hq

theorem FS.get_nil (fs : FS) : fs.get [] = Except.ok (Node.dir fs.root) := rfl

/-- The parent of an existing node is a directory. -/
theorem FS.get_dropLast (fs : FS) (p : Path) (x : Node) (h : fs.get p = Except.ok x) :
    ∃ entries, fs.get p.dropLast = Except.ok (Node.dir entries) := by
  by_cases hp : p = []
  · subst hp
    exact ⟨fs.root, rfl⟩
  · have hsplit := List.dropLast_append_getLast hp
    rw [← hsplit] at h
    exact FS.get_append_dir fs _ _ x h (by simp)

/-- `MkdirAll` on a path that is a directory already changes nothing. -/
theorem mkdirAllFrom_existing (fs : FS) (done rest : Path) (entries : List (String × Node))
    (h : fs.get (done ++ rest) = Except.ok (Node.dir entries)) :
    mkdirAllFrom fs done rest = (fs, none) := by
  induction rest generalizing done with
  | nil => rfl
  | cons name rest ih =>
    have h2 : fs.get ((done ++ [name]) ++ rest) = Except.ok (Node.dir entries) := by
      rw [List.append_assoc]
      exact h
    have hdir : ∃ es, fs.get (done ++ [name]) = Except.ok (Node.dir es) := by
      by_cases hr : rest = []
      · subst hr
        rw [List.append_nil] at h2
        exact ⟨entries, h2⟩
      · exact FS.get_append_dir fs _ _ _ h2 hr
    obtain ⟨es, hes⟩ := hdir
    simp only [mkdirAllFrom, hes]
    exact ih (done ++ [name]) h2

theorem createDirectoryIfNotExists_existing (fs : FS) (np : Path) (x : Node)
    (h : fs.get np = Except.ok x) : createDirectoryIfNotExists fs np = (fs, none) := by
  obtain ⟨es, hes⟩ := FS.get_dropLast fs np x h
  have hm : mkdirAll fs np.dropLast = (fs, none) :=
    mkdirAllFrom_existing fs [] np.dropLast es hes
  simp only [createDirectoryIfNotExists, stat, hes, Node.isDir, hm]
  rfl

/-- A path that exists is taken for a duplicate: nothing is renamed. -/
theorem place_existing (dest : Path) (w : World) (p : Path) (np : String) (x : Node)
    (hne : np.length ≠ 0) (h : w.fs.get (filepathJoin dest np) = Except.ok x) :
    place dest w p np = (w.print (Msg.duplicate p), Outcome.done none) := by
  simp only [place, hne, if_false, createDirectoryIfNotExists_existing _ _ x h, stat, h]

/-- C3: when the path derived for a visited file exists already as a file,
the callback of the first walk renames nothing and changes nothing in the
filesystem (so the source file stays at its path and the existing file keeps
its content), prints the duplicate warning and returns no error. -/
theorem moveStep_duplicate (E : Env) (dest : Path) (w : World) (p : Path) (info : FileInfo)
    (np : String) (content : List Byte)
    (hfile : info.isDir = false)
    (hguess :
      ((stringsToLower E.lowerTable (filepathExt info.name) = ".jpg" ∨
          stringsToLower E.lowerTable (filepathExt info.name) = ".jpeg" ∨
          stringsToLower E.lowerTable (filepathExt info.name) = ".dng") ∧
        guessNewImagePath E w.fs p = Go.ret (Except.ok np)) ∨
      (stringsToLower E.lowerTable (filepathExt info.name) = ".mp4" ∧
        guessNewVideoPath E w.fs p = Except.ok np))
    (hne : np.length ≠ 0)
    (hdest : w.fs.get (filepathJoin dest np) = Except.ok (Node.file content)) :
    moveStep E dest w p (some info) none = (w.print (Msg.duplicate p), Outcome.done none) ∧
    (moveStep E dest w p (some info) none).1.fs = w.fs ∧
    (moveStep E dest w p (some info) none).1.out = w.out ++ [Msg.duplicate p] ∧
    (moveStep E dest w p (some info) none).2 = Outcome.done none := by
  have hplace := place_existing dest w p np _ hne hdest
  have key : moveStep E dest w p (some info) none
      = (w.print (Msg.duplicate p), Outcome.done none) := by
    rcases hguess with ⟨hext, hg⟩ | ⟨hext, hg⟩
    · simp only [moveStep, hfile, Bool.not_false, if_true, hext, hg, hplace]
    · have hnot : ¬ (stringsToLower E.lowerTable (filepathExt info.name) = ".jpg" ∨
          stringsToLower E.lowerTable (filepathExt info.name) = ".jpeg" ∨
          stringsToLower E.lowerTable (filepathExt info.name) = ".dng") := by
        rw [hext]
        decide
      rw [hext] at hnot
      simp only [moveStep, hfile, Bool.not_false, if_true, hext, hg, hplace]
      rw [if_neg hnot]
  rw [key]
  exact ⟨rfl, rfl, rfl, rfl⟩

theorem demoGuess_b :
    guessNewImagePath demoEnv demoPlacedFS ["in", "sub", "b.JPG"] = Go.ret (Except.ok
      "Pictures/2023-06/20230615-103000-ab1227c76707a747e78727c76707a747e78727c76707a747e78727c76707a747.jpeg") := by
  decide

/-- Witness of C3: `in/sub/b.JPG` has the content of the picture already
placed below `out`; it is left where it is. -/
theorem moveStep_duplicate_witness :
    (moveStep demoEnv ["out"] ⟨demoPlacedFS, []⟩ ["in", "sub", "b.JPG"]
        (some ⟨"b.JPG", false⟩) none).1.fs = demoPlacedFS ∧
    (moveStep demoEnv ["out"] ⟨demoPlacedFS, []⟩ ["in", "sub", "b.JPG"]
        (some ⟨"b.JPG", false⟩) none).1.out = [Msg.duplicate ["in", "sub", "b.JPG"]] ∧
    (moveStep demoEnv ["out"] ⟨demoPlacedFS, []⟩ ["in", "sub", "b.JPG"]
        (some ⟨"b.JPG", false⟩) none).2 = Outcome.done none :=
  (moveStep_duplicate demoEnv ["out"] ⟨demoPlacedFS, []⟩ ["in", "sub", "b.JPG"]
    ⟨"b.JPG", false⟩ _ demoPhoto rfl (Or.inl ⟨by decide, demoGuess_b⟩) (by decide)
    rfl).2

/-! ## The calendar, backwards: the wall clock from the formatted fields -/

theorem cycle100 (d1 : Nat) (h : d1 < 146097) :
    d1 / 36524 - d1 / 36524 / 4 ≤ 3 ∧
    36524 * (d1 / 36524 - d1 / 36524 / 4) ≤ d1 ∧
    d1 - 36524 * (d1 / 36524 - d1 / 36524 / 4) ≤ 36524 ∧
    (d1 - 36524 * (d1 / 36524 - d1 / 36524 / 4) = 36524 →
      d1 / 36524 - d1 / 36524 / 4 = 3) := by
  have h1 : d1 / 36524 ≤ 4 := by omega
  have h2 : 36524 * (d1 / 36524) ≤ d1 ∧ d1 < 36524 * (d1 / 36524) + 36524 := by omega
  generalize d1 / 36524 = n at h1 h2 ⊢
  omega

theorem cycle4 (d2 : Nat) (h : d2 ≤ 36524) :
    d2 / 1461 ≤ 24 ∧ 1461 * (d2 / 1461) ≤ d2 ∧ d2 - 1461 * (d2 / 1461) ≤ 1460 ∧
    (d2 / 1461 = 24 → d2 < 36524 → d2 - 1461 * (d2 / 1461) < 1460) := by
  omega

theorem cycle1 (d3 : Nat) (h : d3 ≤ 1460) :
    d3 / 365 - d3 / 365 / 4 ≤ 3 ∧
    365 * (d3 / 365 - d3 / 365 / 4) ≤ d3 ∧
    (d3 - 365 * (d3 / 365 - d3 / 365 / 4) < 365 ∨
      (d3 - 365 * (d3 / 365 - d3 / 365 / 4) = 365 ∧ d3 / 365 - d3 / 365 / 4 = 3 ∧
        d3 = 1460)) := by
  have h1 : d3 / 365 ≤ 4 := by omega
  have h2 : 365 * (d3 / 365) ≤ d3 ∧ d3 < 365 * (d3 / 365) + 365 := by omega
  generalize d3 / 365 = m at h1 h2 ⊢
  omega

/-- Every day count splits into cycles the way `absDate` splits it. -/
theorem absYearDay_decomp (abs : Nat) :
    ∃ q a b c yday : Nat, a ≤ 3 ∧ b ≤ 24 ∧ c ≤ 3 ∧
      (yday < 365 ∨ (yday = 365 ∧ c = 3 ∧ (b ≠ 24 ∨ a = 3))) ∧
      abs / 86400 = 146097 * q + 36524 * a + 1461 * b + 365 * c + yday ∧
      absYearDay abs =
        (wrapI64 (((400 * q + 100 * a + 4 * b + c : Nat) : Int) + absoluteZeroYear), yday) := by
  have hd1 : abs / 86400 - 146097 * (abs / 86400 / 146097) < 146097 ∧
      abs / 86400 = 146097 * (abs / 86400 / 146097) +
        (abs / 86400 - 146097 * (abs / 86400 / 146097)) := by omega
  generalize hd1e : abs / 86400 - 146097 * (abs / 86400 / 146097) = d1 at hd1
  have h100 := cycle100 d1 hd1.1
  generalize hd2 : d1 - 36524 * (d1 / 36524 - d1 / 36524 / 4) = d2 at h100
  have h4 := cycle4 d2 h100.2.2.1
  generalize hd3 : d2 - 1461 * (d2 / 1461) = d3 at h4
  have h1 := cycle1 d3 h4.2.2.1
  refine ⟨abs / 86400 / 146097, d1 / 36524 - d1 / 36524 / 4, d2 / 1461,
    d3 / 365 - d3 / 365 / 4, d3 - 365 * (d3 / 365 - d3 / 365 / 4),
    h100.1, h4.1, h1.1, ?_, ?_, ?_⟩
  · generalize d1 / 36524 - d1 / 36524 / 4 = a at *
    generalize d2 / 1461 = b at *
    generalize d3 / 365 - d3 / 365 / 4 = c at *
    omega
  · generalize d1 / 36524 - d1 / 36524 / 4 = a at *
    generalize d2 / 1461 = b at *
    generalize d3 / 365 - d3 / 365 / 4 = c at *
    generalize abs / 86400 / 146097 = q at *
    generalize abs / 86400 = d at *
    omega
  · subst hd3 hd2 hd1e
    simp only [absYearDay, secondsPerDay, daysPer400Years, daysPer100Years, daysPer4Years]

theorem wrapU64_lt (x : Int) : wrapU64 x < 2 ^ 64 := by
  simp only [wrapU64]
  omega

/-- The day count is determined by the year and the day of the year. -/
theorem wrapI64_year (q a b c : Nat) (hq : q ≤ 1461501637) (ha : a ≤ 3) (hb : b ≤ 24)
    (hc : c ≤ 3) :
    wrapI64 (((400 * q + 100 * a + 4 * b + c : Nat) : Int) + absoluteZeroYear)
      = ((400 * q + 100 * a + 4 * b + c : Nat) : Int) - 292277022399 := by
  simp only [wrapI64, absoluteZeroYear]
  omega

theorem cycles_bound (abs q r : Nat) (h : abs < 2 ^ 64) (hd : abs / 86400 = 146097 * q + r) :
    q ≤ 1461501637 := by
  omega

/-- The day count is determined by the year and the day of the year. -/
theorem absYearDay_inj (abs1 abs2 : Nat) (h1 : abs1 < 2 ^ 64) (h2 : abs2 < 2 ^ 64)
    (h : absYearDay abs1 = absYearDay abs2) : abs1 / 86400 = abs2 / 86400 := by
  obtain ⟨q1, a1, b1, c1, y1, ha1, hb1, hc1, _, hd1, hy1⟩ := absYearDay_decomp abs1
  obtain ⟨q2, a2, b2, c2, y2, ha2, hb2, hc2, _, hd2, hy2⟩ := absYearDay_decomp abs2
  have hq1 := cycles_bound abs1 q1 (36524 * a1 + 1461 * b1 + 365 * c1 + y1) h1
    (by rw [hd1]; omega)
  have hq2 := cycles_bound abs2 q2 (36524 * a2 + 1461 * b2 + 365 * c2 + y2) h2
    (by rw [hd2]; omega)
  rw [hy1, hy2, wrapI64_year q1 a1 b1 c1 hq1 ha1 hb1 hc1,
    wrapI64_year q2 a2 b2 c2 hq2 ha2 hb2 hc2] at h
  simp only [Prod.mk.injEq] at h
  obtain ⟨hyear, hyday⟩ := h
  rw [hd1, hd2]
  clear hd1 hd2 hy1 hy2 h1 h2
  omega

theorem ydayOf_monthDayOf (leap : Bool) (yd : Nat) (h : yd < 365 + (if leap then 1 else 0)) :
    ydayOf leap (monthDayOf leap yd).1 (monthDayOf leap yd).2 = yd ∧
    1 ≤ (monthDayOf leap yd).1 ∧ (monthDayOf leap yd).1 ≤ 12 ∧
    1 ≤ (monthDayOf leap yd).2 ∧
    (monthDayOf leap yd).2 ≤ monthLength leap (monthDayOf leap yd).1 := by
  have hlt : yd < 366 := by
    split at h <;> omega
  exact ydayOf_monthDayOf_fin leap ⟨yd, hlt⟩ h

/-- The year `absDate` reports, its leap rule and the range of the day of
the year. -/
theorem absYearDay_range (abs : Nat) (h : abs < 2 ^ 64) :
    (absYearDay abs).2 < 365 + (if isLeap (absYearDay abs).1 then 1 else 0) := by
  obtain ⟨q, a, b, c, yday, ha, hb, hc, hyd, hd, hy⟩ := absYearDay_decomp abs
  have hq := cycles_bound abs q (36524 * a + 1461 * b + 365 * c + yday) h (by rw [hd]; omega)
  rw [hy, wrapI64_year q a b c hq ha hb hc]
  simp only
  by_cases hl : isLeap (((400 * q + 100 * a + 4 * b + c : Nat) : Int) - 292277022399) = true
  · rw [if_pos hl]
    omega
  · rw [if_neg hl]
    rw [isLeap_iff] at hl
    rcases hyd with h1 | ⟨_, h3, h4⟩
    · omega
    · exfalso
      apply hl
      omega

/-- The wall clock is determined by the date and the time of day that
`Format` prints. -/
theorem abs_of_date_clock (abs1 abs2 : Nat) (h1 : abs1 < 2 ^ 64) (h2 : abs2 < 2 ^ 64)
    (hdate : absDate abs1 = absDate abs2) (hclock : absClock abs1 = absClock abs2) :
    abs1 = abs2 := by
  have hr1 := absYearDay_range abs1 h1
  have hr2 := absYearDay_range abs2 h2
  simp only [absDate, Prod.mk.injEq] at hdate
  obtain ⟨hyear, hmd⟩ := hdate
  have hyd : (absYearDay abs1).2 = (absYearDay abs2).2 := by
    have e1 := (ydayOf_monthDayOf _ _ hr1).1
    have e2 := (ydayOf_monthDayOf _ _ hr2).1
    rw [← e1, ← e2, hmd, hyear]
  have hday : abs1 / 86400 = abs2 / 86400 :=
    absYearDay_inj abs1 abs2 h1 h2 (Prod.ext hyear hyd)
  simp only [absClock, secondsPerDay, Prod.mk.injEq] at hclock
  obtain ⟨hh, hm, hs⟩ := hclock
  have hm1 : abs1 % 86400 < 86400 := Nat.mod_lt _ (by decide)
  have hm2 : abs2 % 86400 < 86400 := Nat.mod_lt _ (by decide)
  have hmod : abs1 % 86400 = abs2 % 86400 := by
    generalize abs1 % 86400 = r1 at hh hm hs hm1
    generalize abs2 % 86400 = r2 at hh hm hs hm2
    omega
  omega

theorem absClock_range (abs : Nat) :
    (absClock abs).1 < 24 ∧ (absClock abs).2.1 < 60 ∧ (absClock abs).2.2 < 60 := by
  simp only [absClock, secondsPerDay]
  have hm1 : abs % 86400 < 86400 := Nat.mod_lt _ (by decide)
  generalize abs % 86400 = r at hm1
  omega

/-! ## Injectivity of the canonical path -/

theorem digitChar_inj (a b : Nat) (h : digitChar a = digitChar b) : a % 10 = b % 10 := by
  have := congrArg Char.toNat h
  rw [digitChar_toNat, digitChar_toNat] at this
  omega

theorem pad2_inj (a b : Nat) (ha : a < 100) (hb : b < 100) (h : pad2 a = pad2 b) : a = b := by
  simp only [pad2, List.cons.injEq, and_true] at h
  have h1 := digitChar_inj _ _ h.1
  have h2 := digitChar_inj _ _ h.2
  omega

theorem pad4_inj (a b : Nat) (ha : a < 10000) (hb : b < 10000) (h : pad4 a = pad4 b) :
    a = b := by
  simp only [pad4, List.cons.injEq, and_true] at h
  have h1 := digitChar_inj _ _ h.1
  have h2 := digitChar_inj _ _ h.2.1
  have h3 := digitChar_inj _ _ h.2.2.1
  have h4 := digitChar_inj _ _ h.2.2.2
  omega

theorem hexDigit_inj : ∀ a b : Fin 16, hexDigit a.val = hexDigit b.val → a = b := by
  decide

theorem hexPair_inj (a b : Byte)
    (h1 : hexDigit (a.val / 16) = hexDigit (b.val / 16))
    (h2 : hexDigit (a.val % 16) = hexDigit (b.val % 16)) : a = b := by
  have ha := a.isLt
  have hb := b.isLt
  have e1 := hexDigit_inj ⟨a.val / 16, by omega⟩ ⟨b.val / 16, by omega⟩ h1
  have e2 := hexDigit_inj ⟨a.val % 16, by omega⟩ ⟨b.val % 16, by omega⟩ h2
  simp only [Fin.mk.injEq] at e1 e2
  apply Fin.ext
  omega

theorem hexEncode_inj (bs1 bs2 : List Byte) (h : hexEncode bs1 = hexEncode bs2) : bs1 = bs2 := by
  have h' : (hexEncode bs1).data = (hexEncode bs2).data := by rw [h]
  simp only [hexEncode] at h'
  clear h
  induction bs1 generalizing bs2 with
  | nil =>
    cases bs2 with
    | nil => rfl
    | cons b rest => simp at h'
  | cons a rest ih =>
    cases bs2 with
    | nil => simp at h'
    | cons b rest2 =>
      simp only [List.flatMap_cons, List.cons_append, List.nil_append, List.cons.injEq] at h'
      rw [hexPair_inj a b h'.1 h'.2.1, ih rest2 h'.2.2]

/-- What `Format` prints for a time with a four-digit year. -/
theorem format_fields (t : Time) (hy : FourDigitYear t) :
    ∃ Y M D h mi s : Nat, Y ≤ 9999 ∧ M ≤ 12 ∧ D ≤ 31 ∧ h < 24 ∧ mi < 60 ∧ s < 60 ∧
      absDate t.locabs = ((Y : Int), M, D) ∧ absClock t.locabs = (h, mi, s) ∧
      formatYearMonth t = ⟨pad4 Y ++ ['-'] ++ pad2 M⟩ ∧
      formatStamp t = ⟨pad4 Y ++ pad2 M ++ pad2 D ++ ['-'] ++ pad2 h ++ pad2 mi ++ pad2 s⟩ := by
  obtain ⟨hy0, hy1⟩ := hy
  have hlt : t.locabs < 2 ^ 64 := wrapU64_lt _
  have hr := absYearDay_range t.locabs hlt
  obtain ⟨_, _, hM, _, hD⟩ := ydayOf_monthDayOf _ _ hr
  have hD2 := monthLength_le (isLeap (absYearDay t.locabs).1)
    (monthDayOf (isLeap (absYearDay t.locabs).1) (absYearDay t.locabs).2).1
  obtain ⟨hh, hmi, hs⟩ := absClock_range t.locabs
  have hdate : absDate t.locabs = ((((absDate t.locabs).1.toNat : Nat) : Int),
      (absDate t.locabs).2.1, (absDate t.locabs).2.2) := by
    rw [Int.toNat_of_nonneg hy0]
  have hM' : (absDate t.locabs).2.1 ≤ 12 := hM
  have hD' : (absDate t.locabs).2.2 ≤ 31 := by
    have : (absDate t.locabs).2.2 ≤ monthLength (isLeap (absYearDay t.locabs).1)
      (monthDayOf (isLeap (absYearDay t.locabs).1) (absYearDay t.locabs).2).1 := hD
    omega
  have hY : (absDate t.locabs).1.toNat ≤ 9999 := by omega
  obtain ⟨f1, f2⟩ := format_of_civil t _ _ _ _ _ _ hY hM' hD' hh hmi hs hdate rfl
  exact ⟨_, _, _, _, _, _, hY, hM', hD', hh, hmi, hs, hdate, rfl, f1, f2⟩

theorem canonicalPath_data (category : String) (t : Time) (d : Digest) (ext : String) :
    (canonicalPath category t d ext).data =
      category.data ++ ('/' :: ((formatYearMonth t).data ++ ('/' :: ((formatStamp t).data ++
        ('-' :: ((hexEncode d.bytes).data ++ ext.data)))))) := by
  simp only [canonicalPath, String.data_append, List.append_assoc]
  rfl

theorem pad2_length (n : Nat) : (pad2 n).length = 2 := rfl

theorem pad4_length (n : Nat) : (pad4 n).length = 4 := rfl

/-- C7: the canonical path is an injective function of the category
(`Pictures` or `Videos`), the timestamp (the second on the wall clock, in a
four-digit year), the 32-byte digest and the extension: two tuples give the
same path exactly when they agree in every component. -/
theorem canonicalPath_injective (c1 c2 : String) (t1 t2 : Time) (d1 d2 : Digest)
    (e1 e2 : String)
    (hc1 : c1 = "Pictures" ∨ c1 = "Videos") (hc2 : c2 = "Pictures" ∨ c2 = "Videos")
    (hy1 : FourDigitYear t1) (hy2 : FourDigitYear t2) :
    canonicalPath c1 t1 d1 e1 = canonicalPath c2 t2 d2 e2 ↔
      (c1 = c2 ∧ t1.locabs = t2.locabs ∧ d1.bytes = d2.bytes ∧ e1 = e2) := by
  constructor
  · intro heq
    have hdata := congrArg String.data heq
    rw [canonicalPath_data, canonicalPath_data] at hdata
    obtain ⟨Y1, M1, D1, h1, mi1, s1, hY1, hM1, hD1, hh1, hmi1, hs1, hdate1, hclock1, fy1, fs1⟩ :=
      format_fields t1 hy1
    obtain ⟨Y2, M2, D2, h2, mi2, s2, hY2, hM2, hD2, hh2, hmi2, hs2, hdate2, hclock2, fy2, fs2⟩ :=
      format_fields t2 hy2
    rw [fy1, fs1, fy2, fs2] at hdata
    have hcat : c1 = c2 := by
      rcases hc1 with rfl | rfl <;> rcases hc2 with rfl | rfl
      · rfl
      · exact absurd (List.head_eq_of_cons_eq hdata) (by decide)
      · exact absurd (List.head_eq_of_cons_eq hdata) (by decide)
      · rfl
    subst hcat
    have hrest := List.append_cancel_left hdata
    simp only [List.cons.injEq, true_and] at hrest
    obtain ⟨hym, hrest⟩ := List.append_inj hrest rfl
    have hrest := (List.cons.inj hrest).2
    obtain ⟨hst, hrest⟩ := List.append_inj hrest rfl
    have hrest := (List.cons.inj hrest).2
    obtain ⟨hhex, hext⟩ := List.append_inj hrest
      (by rw [hexEncode_length, hexEncode_length, d1.size, d2.size])
    obtain ⟨hYd, hM⟩ := List.append_inj hym rfl
    obtain ⟨hY, _⟩ := List.append_inj hYd rfl
    obtain ⟨hst, hs⟩ := List.append_inj hst rfl
    obtain ⟨hst, hmi⟩ := List.append_inj hst rfl
    obtain ⟨hst, hh⟩ := List.append_inj hst rfl
    obtain ⟨hst, _⟩ := List.append_inj hst rfl
    obtain ⟨_, hD⟩ := List.append_inj hst rfl
    have eY := pad4_inj Y1 Y2 (by omega) (by omega) hY
    have eM := pad2_inj M1 M2 (by omega) (by omega) hM
    have eD := pad2_inj D1 D2 (by omega) (by omega) hD
    have eh := pad2_inj h1 h2 (by omega) (by omega) hh
    have emi := pad2_inj mi1 mi2 (by omega) (by omega) hmi
    have es := pad2_inj s1 s2 (by omega) (by omega) hs
    subst eY eM eD eh emi es
    refine ⟨rfl, ?_, ?_, ?_⟩
    · exact abs_of_date_clock _ _ (wrapU64_lt _) (wrapU64_lt _) (hdate1.trans hdate2.symm)
        (hclock1.trans hclock2.symm)
    · exact hexEncode_inj _ _ (String.ext hhex)
    · exact String.ext hext
  · rintro ⟨rfl, habs, hd, rfl⟩
    simp only [canonicalPath, formatYearMonth, formatStamp, habs, hd]

/-- In UTC the wall clock determines the instant. -/
theorem locabs_utc_inj (t1 t2 : Time) (h1 : t1.loc = utcLoc) (h2 : t2.loc = utcLoc)
    (r1 : -2 ^ 62 ≤ t1.sec ∧ t1.sec < 2 ^ 62) (r2 : -2 ^ 62 ≤ t2.sec ∧ t2.sec < 2 ^ 62)
    (h : t1.locabs = t2.locabs) : t1.sec = t2.sec := by
  simp only [Time.locabs, h1, h2, utcLoc, wrapU64, unixToInternal, internalToAbsolute] at h
  omega

/-- Witness of C7: two pictures taken one second apart, with the same
digest and extension, get different paths. -/
theorem canonicalPath_injective_witness :
    FourDigitYear (timeUnix utcLoc 1686825000) ∧ FourDigitYear (timeUnix utcLoc 1686825001) ∧
    canonicalPath "Pictures" (timeUnix utcLoc 1686825000) (demoDigest []) ".jpeg" ≠
      canonicalPath "Pictures" (timeUnix utcLoc 1686825001) (demoDigest []) ".jpeg" := by
  have f1 : FourDigitYear (timeUnix utcLoc 1686825000) := by
    unfold FourDigitYear
    decide
  have f2 : FourDigitYear (timeUnix utcLoc 1686825001) := by
    unfold FourDigitYear
    decide
  refine ⟨f1, f2, fun h => ?_⟩
  have := ((canonicalPath_injective "Pictures" "Pictures" _ _ _ _ _ _ (Or.inl rfl) (Or.inl rfl)
    f1 f2).mp h).2.1
  exact absurd this (by decide)

/-! ## The components of a derived path -/

theorem StampChar.ne_slash {c : Char} (h : StampChar c) : c ≠ '/' := by
  rcases h with rfl | rfl | ⟨n, rfl⟩
  · decide
  · decide
  · exact digitChar_ne n '/' (Or.inl (by decide))

theorem StampChar.ne_dot {c : Char} (h : StampChar c) : c ≠ '.' := by
  rcases h with rfl | rfl | ⟨n, rfl⟩
  · decide
  · decide
  · exact digitChar_ne n '.' (Or.inl (by decide))

theorem decimalDigits_chars (fuel u : Nat) : ∀ c ∈ decimalDigits fuel u, StampChar c := by
  induction fuel generalizing u with
  | zero => intro c hc; simp [decimalDigits] at hc
  | succ fuel ih =>
    intro c hc
    simp only [decimalDigits] at hc
    split at hc
    · simp only [List.mem_singleton] at hc
      exact Or.inr (Or.inr ⟨u, hc⟩)
    · simp only [List.mem_append, List.mem_singleton] at hc
      rcases hc with hc | hc
      · exact ih _ c hc
      · exact Or.inr (Or.inr ⟨u, hc⟩)

theorem decimalDigits_ne_nil (fuel u : Nat) : decimalDigits (fuel + 1) u ≠ [] := by
  simp only [decimalDigits]
  split <;> simp

theorem appendInt_chars (x : Int) (width : Nat) : ∀ c ∈ appendInt x width, StampChar c := by
  intro c hc
  have hsign : ∀ c ∈ (if x < 0 then ['-'] else []), StampChar c := by
    intro c hc
    split at hc
    · simp only [List.mem_singleton] at hc
      exact Or.inl hc
    · simp at hc
  simp only [appendInt] at hc
  split at hc
  · simp only [List.mem_append, List.mem_cons, List.mem_singleton, List.mem_nil_iff,
      or_false] at hc
    rcases hc with hc | hc | hc
    · exact hsign c hc
    · exact Or.inr (Or.inr ⟨_, hc⟩)
    · exact Or.inr (Or.inr ⟨_, hc⟩)
  · split at hc
    · simp only [List.mem_append, List.mem_cons, List.mem_singleton, List.mem_nil_iff,
        or_false] at hc
      rcases hc with hc | hc | hc | hc | hc
      · exact hsign c hc
      · exact Or.inr (Or.inr ⟨_, hc⟩)
      · exact Or.inr (Or.inr ⟨_, hc⟩)
      · exact Or.inr (Or.inr ⟨_, hc⟩)
      · exact Or.inr (Or.inr ⟨_, hc⟩)
    · simp only [List.mem_append, List.mem_replicate] at hc
      rcases hc with (hc | hc) | hc
      · exact hsign c hc
      · exact Or.inr (Or.inl hc.2)
      · exact decimalDigits_chars _ _ c hc

theorem appendInt_ne_nil (x : Int) (width : Nat) : appendInt x width ≠ [] := by
  simp only [appendInt]
  split
  · simp
  · split
    · simp
    · have := decimalDigits_ne_nil x.natAbs x.natAbs
      simp [this]

theorem formatYearMonth_chars (t : Time) :
    (formatYearMonth t).data ≠ [] ∧ ∀ c ∈ (formatYearMonth t).data, StampChar c := by
  simp only [formatYearMonth]
  refine ⟨?_, ?_⟩
  · have := appendInt_ne_nil (absDate t.locabs).1 4
    simp [this]
  · intro c hc
    simp only [List.mem_append, List.mem_singleton] at hc
    rcases hc with (hc | hc) | hc
    · exact appendInt_chars _ _ c hc
    · exact Or.inl hc
    · exact appendInt_chars _ _ c hc

theorem formatStamp_chars (t : Time) :
    (formatStamp t).data ≠ [] ∧ ∀ c ∈ (formatStamp t).data, StampChar c := by
  simp only [formatStamp]
  refine ⟨?_, ?_⟩
  · have := appendInt_ne_nil (absDate t.locabs).1 4
    simp [this]
  · intro c hc
    simp only [List.mem_append, List.mem_singleton] at hc
    rcases hc with (((((hc | hc) | hc) | hc) | hc) | hc) | hc
    · exact appendInt_chars _ _ c hc
    · exact appendInt_chars _ _ c hc
    · exact appendInt_chars _ _ c hc
    · exact Or.inl hc
    · exact appendInt_chars _ _ c hc
    · exact appendInt_chars _ _ c hc
    · exact appendInt_chars _ _ c hc

theorem hexDigit_ne_slash (n : Nat) : hexDigit n ≠ '/' := by
  by_cases h : n < 16
  · have : ∀ k : Fin 16, hexDigit k.val ≠ '/' := by decide
    exact this ⟨n, h⟩
  · have : hexDigit n = '0' := by
      simp only [hexDigit]
      apply List.getD_eq_default
      exact Nat.le_of_not_lt h
    rw [this]
    decide

theorem hexEncode_noslash (bs : List Byte) : '/' ∉ (hexEncode bs).data := by
  simp only [hexEncode]
  induction bs with
  | nil => simp
  | cons b rest ih =>
    simp only [List.flatMap_cons, List.cons_append, List.nil_append, List.mem_cons, not_or]
    exact ⟨(hexDigit_ne_slash _).symm, (hexDigit_ne_slash _).symm, ih⟩

theorem extAux_noslash (l acc : List Char) (hacc : '/' ∉ acc) : '/' ∉ extAux l acc := by
  induction l generalizing acc with
  | nil => simp [extAux]
  | cons c rest ih =>
    simp only [extAux]
    split
    · simp
    · rename_i hc
      split
      · rename_i hdot
        simp only [List.mem_cons, not_or]
        exact ⟨fun h => hc h.symm, hacc⟩
      · apply ih
        simp only [List.mem_cons, not_or]
        exact ⟨fun h => hc h.symm, hacc⟩

theorem lowerRune_ne_slash (table : Char → Char) (htab : ∀ c, 127 < c.toNat → table c ≠ '/') (c : Char)
    (hc : c ≠ '/') : lowerRune table c ≠ '/' := by
  simp only [lowerRune]
  split
  · split
    · rename_i h1 h2
      have h3 : (65 : Nat) ≤ c.toNat := h2.1
      have h4 : c.toNat ≤ 90 := h2.2
      intro h
      have := congrArg Char.toNat h
      rw [toNat_ofNat_small _ (by omega)] at this
      have h5 : '/'.toNat = 47 := rfl
      omega
    · exact hc
  · rename_i h1
    exact htab c (by omega)

theorem extensionFor_noslash (table : Char → Char) (htab : ∀ c, 127 < c.toNat → table c ≠ '/') (p : String) :
    '/' ∉ (extensionFor table p).data := by
  simp only [extensionFor]
  split
  · decide
  · simp only [stringsToLower, filepathExt, List.mem_map, not_exists, not_and]
    intro c hc
    have hne : c ≠ '/' := by
      intro h
      rw [h] at hc
      exact extAux_noslash _ [] (by simp) hc
    exact lowerRune_ne_slash table htab c hne

theorem splitSlash_noslash (a cur : List Char) (h : '/' ∉ a) :
    splitSlash a cur = [⟨cur.reverse ++ a⟩] := by
  induction a generalizing cur with
  | nil => simp [splitSlash]
  | cons c rest ih =>
    simp only [List.mem_cons, not_or] at h
    have hc : c ≠ '/' := fun e => h.1 e.symm
    simp only [splitSlash, hc, if_false]
    rw [ih (c :: cur) h.2]
    simp

theorem splitSlash_append (a b cur : List Char) (h : '/' ∉ a) :
    splitSlash (a ++ '/' :: b) cur = ⟨cur.reverse ++ a⟩ :: splitSlash b [] := by
  induction a generalizing cur with
  | nil => simp [splitSlash]
  | cons c rest ih =>
    simp only [List.mem_cons, not_or] at h
    have hc : c ≠ '/' := fun e => h.1 e.symm
    simp only [List.cons_append, splitSlash, hc, if_false]
    have := ih (c :: cur) h.2
    simp only [List.reverse_cons, List.append_assoc, List.singleton_append] at this
    exact this

theorem joinStep_plain (stack : Path) (comp : String) (c : Char) (rest : List Char)
    (hdata : comp.data = c :: rest) (hc : c ≠ '.') : joinStep stack comp = stack ++ [comp] := by
  have h1 : comp ≠ "" := by
    intro h
    rw [h] at hdata
    cases hdata
  have h2 : comp ≠ "." := by
    intro h
    rw [h] at hdata
    injection hdata with h3 _
    exact hc h3.symm
  have h3 : comp ≠ ".." := by
    intro h
    rw [h] at hdata
    injection hdata with h3 _
    exact hc h3.symm
  simp [joinStep, h1, h2, h3]

theorem Separated.not_under {src dest : Path} (hsep : Separated src dest) (cat : String)
    (hcat : cat = "Pictures" ∨ cat = "Videos") (rest : Path) :
    ¬ src <+: dest ++ cat :: rest := by
  intro h
  have hd : dest <+: dest ++ cat :: rest := List.prefix_append _ _
  have hdc : dest ++ [cat] <+: dest ++ cat :: rest := by
    have : dest ++ cat :: rest = (dest ++ [cat]) ++ rest := by simp
    rw [this]
    exact List.prefix_append _ _
  by_cases hlen : src.length ≤ dest.length
  · exact hsep.1 (List.prefix_of_prefix_length_le h hd hlen)
  · have hlen2 : (dest ++ [cat]).length ≤ src.length := by
      simp only [List.length_append, List.length_singleton]
      omega
    have := List.prefix_of_prefix_length_le hdc h hlen2
    rcases hcat with rfl | rfl
    · exact hsep.2.1 this
    · exact hsep.2.2 this

theorem filepathJoin_canonical (dest : Path) (cat : String) (t : Time) (d : Digest)
    (ext : String) (hcat : cat = "Pictures" ∨ cat = "Videos") (hext : '/' ∉ ext.data) :
    filepathJoin dest (canonicalPath cat t d ext) =
      dest ++ [cat, formatYearMonth t,
        ⟨(formatStamp t).data ++ '-' :: ((hexEncode d.bytes).data ++ ext.data)⟩] := by
  obtain ⟨hym1, hym2⟩ := formatYearMonth_chars t
  obtain ⟨hst1, hst2⟩ := formatStamp_chars t
  have hcat1 : '/' ∉ cat.data := by
    rcases hcat with rfl | rfl <;> decide
  have hym3 : '/' ∉ (formatYearMonth t).data := fun h => (hym2 _ h).ne_slash rfl
  have hfn : '/' ∉ (formatStamp t).data ++ '-' :: ((hexEncode d.bytes).data ++ ext.data) := by
    simp only [List.mem_append, List.mem_cons, not_or]
    exact ⟨fun h => (hst2 _ h).ne_slash rfl, by decide, hexEncode_noslash _, hext⟩
  simp only [filepathJoin, canonicalPath_data]
  rw [splitSlash_append _ _ _ hcat1, splitSlash_append _ _ _ hym3, splitSlash_noslash _ _ hfn]
  simp only [List.reverse_nil, List.nil_append, List.foldl_cons, List.foldl_nil]
  have j1 : joinStep dest ⟨cat.data⟩ = dest ++ [⟨cat.data⟩] := by
    rcases hcat with rfl | rfl
    · exact joinStep_plain _ _ 'P' _ rfl (by decide)
    · exact joinStep_plain _ _ 'V' _ rfl (by decide)
  rw [j1]
  have j2 : ∀ stack, joinStep stack ⟨(formatYearMonth t).data⟩
      = stack ++ [⟨(formatYearMonth t).data⟩] := by
    intro stack
    cases hd : (formatYearMonth t).data with
    | nil => exact absurd hd hym1
    | cons c rest =>
      refine joinStep_plain _ _ c rest rfl ?_
      have : c ∈ (formatYearMonth t).data := by rw [hd]; simp
      exact (hym2 c this).ne_dot
  rw [j2]
  have j3 : ∀ stack, joinStep stack
      ⟨(formatStamp t).data ++ '-' :: ((hexEncode d.bytes).data ++ ext.data)⟩
      = stack ++ [⟨(formatStamp t).data ++ '-' :: ((hexEncode d.bytes).data ++ ext.data)⟩] := by
    intro stack
    cases hd : (formatStamp t).data with
    | nil => exact absurd hd hst1
    | cons c rest =>
      refine joinStep_plain _ _ c _ rfl ?_
      have : c ∈ (formatStamp t).data := by rw [hd]; simp
      exact (hst2 c this).ne_dot
  rw [j3]
  simp

/-- When `guessNewVideoPath` derives a path, it is a canonical path. -/
theorem guessNewVideoPath_path (E : Env) (fs : FS) (p : Path) (np : String)
    (hres : guessNewVideoPath E fs p = Except.ok np) (hne : np ≠ "") :
    ∃ t d, np = canonicalPath "Videos" t d (extensionFor E.lowerTable (pathString p)) := by
  unfold guessNewVideoPath at hres
  split at hres
  · cases hres
  · split at hres
    · cases hres
    · split at hres
      · injection hres with h
        exact absurd h.symm hne
      · injection hres with h
        exact ⟨_, _, h.symm⟩

/-! ## The filesystem: what an update changes -/

theorem lookupEntry_filter_ne (entries : List (String × Node)) (name n : String)
    (h : n ≠ name) :
    lookupEntry (entries.filter (fun e => e.1 ≠ name)) n = lookupEntry entries n := by
  induction entries with
  | nil => rfl
  | cons e rest ih =>
    obtain ⟨m, x⟩ := e
    by_cases hm : m = name
    · have hmn : m ≠ n := fun e => h (e ▸ hm)
      simp only [List.filter, hm, ne_eq, not_true_eq_false, decide_False, lookupEntry]
      rw [ih]
      have : ¬ name = n := fun e => h e.symm
      simp [this]
    · simp only [List.filter, hm, ne_eq, not_false_eq_true, decide_True, lookupEntry, ih]

theorem lookupEntry_filter_same (entries : List (String × Node)) (name : String) :
    lookupEntry (entries.filter (fun e => e.1 ≠ name)) name = none := by
  induction entries with
  | nil => rfl
  | cons e rest ih =>
    obtain ⟨m, x⟩ := e
    by_cases hm : m = name
    · simp only [List.filter, hm, ne_eq, not_true_eq_false, decide_False, ih]
    · simp only [List.filter, hm, ne_eq, not_false_eq_true, decide_True, lookupEntry, ih,
        if_false]

theorem lookupEntry_setEntry_ne (entries : List (String × Node)) (name n : String)
    (v : Option Node) (h : n ≠ name) :
    lookupEntry (setEntry entries name v) n = lookupEntry entries n := by
  cases v with
  | none => exact lookupEntry_filter_ne entries name n h
  | some x =>
    have : ¬ name = n := fun e => h e.symm
    simp only [setEntry, lookupEntry, this, if_false]
    exact lookupEntry_filter_ne entries name n h

theorem lookupEntry_setEntry_same (entries : List (String × Node)) (name : String)
    (v : Option Node) : lookupEntry (setEntry entries name v) name = v := by
  cases v with
  | none => exact lookupEntry_filter_same entries name
  | some x => simp [setEntry, lookupEntry]

/-- Away from the updated path nothing observable changes. -/
theorem Node.alter_get_off_node (t : Node) (p q : Path) (v : Option Node) (h : ¬ p <+: q) :
    obs ((t.alter p v).get q) = obs (t.get q) := by
  induction p generalizing t q with
  | nil => exact absurd (List.nil_prefix) h
  | cons name rest ih =>
    cases t with
    | file d => cases rest <;> rfl
    | dir entries =>
      cases q with
      | nil =>
        cases rest with
        | nil => rfl
        | cons r rest' =>
          simp only [Node.alter]
          split <;> rfl
      | cons n qr =>
        by_cases hn : n = name
        · subst hn
          have hrest : ¬ rest <+: qr := fun hp => h ((List.prefix_cons_inj n).mpr hp)
          cases rest with
          | nil => exact absurd List.nil_prefix hrest
          | cons r rest' =>
            simp only [Node.alter]
            cases hl : lookupEntry entries n with
            | none => rfl
            | some child =>
              simp only [Node.get, lookupEntry_setEntry_same, hl]
              exact ih child qr hrest
        · cases rest with
          | nil =>
            simp only [Node.alter, Node.get, lookupEntry_setEntry_ne _ _ _ _ hn]
          | cons r rest' =>
            simp only [Node.alter]
            cases hl : lookupEntry entries name with
            | none => rfl
            | some child =>
              simp only [Node.get, lookupEntry_setEntry_ne _ _ _ _ hn]

/-- Below a deleted path nothing resolves. -/
theorem Node.alter_none_under_node (t : Node) (p q : Path) (hp : p ≠ []) (h : p <+: q) :
    ∃ e, (t.alter p none).get q = Except.error e := by
  induction p generalizing t q with
  | nil => exact absurd rfl hp
  | cons name rest ih =>
    cases q with
    | nil => exact absurd (List.eq_nil_of_prefix_nil h) hp
    | cons n qr =>
      have hn : name = n := by
        obtain ⟨r, hr⟩ := h
        injection hr with h1 _
      subst hn
      have hrest : rest <+: qr := (List.prefix_cons_inj name).mp h
      cases t with
      | file d => cases rest <;> exact ⟨_, rfl⟩
      | dir entries =>
        cases rest with
        | nil =>
          refine ⟨Err.notExist, ?_⟩
          simp only [Node.alter, Node.get, lookupEntry_setEntry_same]
        | cons r rest' =>
          simp only [Node.alter]
          cases hl : lookupEntry entries name with
          | none => exact ⟨Err.notExist, by simp only [Node.get, hl]⟩
          | some child =>
            simp only [Node.get, lookupEntry_setEntry_same]
            exact ih child qr (by simp) hrest

/-- The node put at a path whose parent directory exists is found there. -/
theorem Node.alter_get_same_node (t : Node) (p : Path) (x : Node) (hp : p ≠ [])
    (hpar : ∃ entries, t.get p.dropLast = Except.ok (Node.dir entries)) :
    (t.alter p (some x)).get p = Except.ok x := by
  induction p generalizing t with
  | nil => exact absurd rfl hp
  | cons name rest ih =>
    obtain ⟨es, hes⟩ := hpar
    cases t with
    | file d =>
      cases rest with
      | nil => simp [Node.get] at hes
      | cons r rest' => simp [List.dropLast, Node.get] at hes
    | dir entries =>
      cases rest with
      | nil => simp only [Node.alter, Node.get, lookupEntry_setEntry_same]
      | cons r rest' =>
        simp only [List.dropLast, Node.get] at hes
        simp only [Node.alter]
        cases hl : lookupEntry entries name with
        | none => simp [hl] at hes
        | some child =>
          simp only [hl] at hes
          simp only [Node.get, lookupEntry_setEntry_same]
          exact ih child (by simp) ⟨es, hes⟩

/-- A directory made at a path that did not resolve brings no file. -/
theorem Node.alter_mkdir_under_node (t : Node) (p r : Path) (e : Err) (hp : p ≠ [])
    (habs : t.get p = Except.error e) (d : List Byte) :
    (t.alter p (some (Node.dir []))).get (p ++ r) ≠ Except.ok (Node.file d) := by
  induction p generalizing t with
  | nil => exact absurd rfl hp
  | cons name rest ih =>
    cases t with
    | file d' => cases rest <;> simp [Node.alter, Node.get]
    | dir entries =>
      cases rest with
      | nil =>
        simp only [Node.alter, List.cons_append, List.nil_append, Node.get,
          lookupEntry_setEntry_same]
        cases r with
        | nil => simp [Node.get]
        | cons n r' => simp [Node.get, lookupEntry]
      | cons r1 rest' =>
        simp only [Node.alter]
        cases hl : lookupEntry entries name with
        | none => simp [Node.get, hl]
        | some child =>
          simp only [Node.get, hl] at habs
          simp only [List.cons_append, Node.get, lookupEntry_setEntry_same]
          exact ih child (by simp) habs

theorem Node.alter_dir (entries : List (String × Node)) (name : String) (rest : Path)
    (v : Option Node) : ∃ es, (Node.dir entries).alter (name :: rest) v = Node.dir es := by
  cases rest with
  | nil => exact ⟨_, rfl⟩
  | cons r rest' =>
    simp only [Node.alter]
    split <;> exact ⟨_, rfl⟩

theorem FS.alter_get (fs : FS) (p q : Path) (v : Option Node) (hp : p ≠ []) :
    (fs.alter p v).get q = ((Node.dir fs.root).alter p v).get q := by
  cases p with
  | nil => exact absurd rfl hp
  | cons name rest =>
    obtain ⟨es, hes⟩ := Node.alter_dir fs.root name rest v
    simp only [FS.alter, FS.get, hes]

theorem FS.alter_get_off (fs : FS) (p q : Path) (v : Option Node) (h : ¬ p <+: q) :
    obs ((fs.alter p v).get q) = obs (fs.get q) := by
  have hp : p ≠ [] := fun e => h (e ▸ List.nil_prefix)
  rw [FS.alter_get fs p q v hp]
  exact Node.alter_get_off_node _ p q v h

theorem FS.alter_none_under (fs : FS) (p q : Path) (hp : p ≠ []) (h : p <+: q) :
    ∃ e, (fs.alter p none).get q = Except.error e := by
  rw [FS.alter_get fs p q none hp]
  exact Node.alter_none_under_node _ p q hp h

theorem FS.alter_get_same (fs : FS) (p : Path) (x : Node) (hp : p ≠ [])
    (hpar : ∃ entries, fs.get p.dropLast = Except.ok (Node.dir entries)) :
    (fs.alter p (some x)).get p = Except.ok x := by
  rw [FS.alter_get fs p p _ hp]
  exact Node.alter_get_same_node _ p x hp hpar

theorem FS.alter_mkdir_under (fs : FS) (p r : Path) (e : Err) (hp : p ≠ [])
    (habs : fs.get p = Except.error e) (d : List Byte) :
    (fs.alter p (some (Node.dir []))).get (p ++ r) ≠ Except.ok (Node.file d) := by
  rw [FS.alter_get fs p _ _ hp]
  exact Node.alter_mkdir_under_node _ p r e hp habs d

/-- A path that resolves has all its prefixes resolving. -/
theorem FS.get_prefix (fs : FS) (p q : Path) (x : Node) (h : p <+: q)
    (hq : fs.get q = Except.ok x) : ∃ y, fs.get p = Except.ok y := by
  obtain ⟨r, rfl⟩ := h
  by_cases hr : r = []
  · subst hr
    rw [List.append_nil] at hq
    exact ⟨x, hq⟩
  · obtain ⟨es, hes⟩ := FS.get_append_dir fs p r x hq hr
    exact ⟨_, hes⟩

theorem Grow.grow_refl (fs : FS) : Grow fs fs := ⟨fun _ _ => rfl, fun _ _ h => h⟩

theorem obs_ok_iff (r : Except Err Node) : (∃ x, r = Except.ok x) ↔ ∃ o, obs r = Except.ok o := by
  cases r with
  | error e => simp [obs]
  | ok x => cases x <;> simp [obs]

theorem obs_file_iff (r : Except Err Node) (d : List Byte) :
    r = Except.ok (Node.file d) ↔ obs r = Except.ok (some d) := by
  cases r with
  | error e => simp [obs]
  | ok x => cases x <;> simp [obs]

theorem Grow.grow_trans {a b c : FS} (h1 : Grow a b) (h2 : Grow b c) : Grow a c := by
  refine ⟨?_, ?_⟩
  · intro q hq
    have e1 := h1.1 q hq
    have hb : ∃ x, b.get q = Except.ok x := by
      rw [obs_ok_iff] at hq ⊢
      rw [e1]
      exact hq
    rw [h2.1 q hb, e1]
  · intro q d hq
    exact h1.2 q d (h2.2 q d hq)

theorem grow_mkdir (fs : FS) (p : Path) (e : Err) (hp : p ≠ [])
    (habs : fs.get p = Except.error e) : Grow fs (fs.alter p (some (Node.dir []))) := by
  refine ⟨?_, ?_⟩
  · intro q ⟨x, hx⟩
    apply FS.alter_get_off
    intro hpq
    obtain ⟨y, hy⟩ := FS.get_prefix fs p q x hpq hx
    rw [habs] at hy
    cases hy
  · intro q d hq
    by_cases hpq : p <+: q
    · obtain ⟨r, rfl⟩ := hpq
      exact absurd hq (FS.alter_mkdir_under fs p r e hp habs d)
    · have := FS.alter_get_off fs p q (some (Node.dir [])) hpq
      rw [(obs_file_iff _ d).mp hq] at this
      exact (obs_file_iff _ d).mpr this.symm

theorem mkdirAllFrom_grow (fs : FS) (done rest : Path) :
    Grow fs (mkdirAllFrom fs done rest).1 := by
  induction rest generalizing fs done with
  | nil => exact Grow.grow_refl fs
  | cons name rest ih =>
    simp only [mkdirAllFrom]
    split
    · exact ih fs _
    · exact Grow.grow_refl fs
    · rename_i e habs
      exact (grow_mkdir fs (done ++ [name]) e (by simp) habs).grow_trans (ih _ _)

theorem mkdirAllFrom_ok (fs fs' : FS) (done rest : Path)
    (hdone : ∃ es, fs.get done = Except.ok (Node.dir es))
    (h : mkdirAllFrom fs done rest = (fs', none)) :
    ∃ es, fs'.get (done ++ rest) = Except.ok (Node.dir es) := by
  induction rest generalizing fs done with
  | nil =>
    simp only [mkdirAllFrom, Prod.mk.injEq, and_true] at h
    subst h
    simpa using hdone
  | cons name rest ih =>
    simp only [mkdirAllFrom] at h
    split at h
    · rename_i es hes
      have := ih fs (done ++ [name]) ⟨es, hes⟩ h
      simpa using this
    · simp at h
    · rename_i e habs
      have hnew := FS.alter_get_same fs (done ++ [name]) (Node.dir []) (by simp)
        (by simpa using hdone)
      have := ih _ (done ++ [name]) ⟨[], hnew⟩ h
      simpa using this

theorem createDirectoryIfNotExists_ok (fs fs' : FS) (np : Path)
    (h : createDirectoryIfNotExists fs np = (fs', none)) :
    Grow fs fs' ∧ ∃ es, fs'.get np.dropLast = Except.ok (Node.dir es) := by
  have hg := mkdirAllFrom_grow fs [] np.dropLast
  have hroot : ∃ es, fs.get [] = Except.ok (Node.dir es) := ⟨fs.root, rfl⟩
  simp only [createDirectoryIfNotExists, mkdirAll] at h
  split at h
  · split at h
    · simp at h
    · have hok := mkdirAllFrom_ok fs fs' [] np.dropLast hroot h
      rw [h] at hg
      exact ⟨hg, by simpa using hok⟩
  · split at h
    · simp at h
    · have hok := mkdirAllFrom_ok fs fs' [] np.dropLast hroot h
      rw [h] at hg
      exact ⟨hg, by simpa using hok⟩

theorem Frame.frame_refl (src : Path) (fs : FS) : Frame src fs fs := ⟨fun _ _ _ h => h, fun _ _ h => h⟩

theorem Frame.frame_trans {src : Path} {a b c : FS} (h1 : Frame src a b) (h2 : Frame src b c) :
    Frame src a c :=
  ⟨fun q d hq h => h1.1 q d hq (h2.1 q d hq h), fun q hq h => h2.2 q hq (h1.2 q hq h)⟩

theorem Grow.to_frame {fs fs' : FS} (h : Grow fs fs') (src : Path) : Frame src fs fs' := by
  refine ⟨fun q d _ hq => h.2 q d hq, fun q _ hq => ?_⟩
  have := h.1 q hq
  rw [obs_ok_iff] at hq ⊢
  rw [this]
  exact hq

theorem obs_eq_exists {r r' : Except Err Node} (h : obs r' = obs r)
    (hr : ∃ x, r = Except.ok x) : ∃ x, r' = Except.ok x := by
  rw [obs_ok_iff] at hr ⊢
  rw [h]
  exact hr

theorem obs_eq_file {r r' : Except Err Node} (h : obs r' = obs r) (d : List Byte)
    (hr : r' = Except.ok (Node.file d)) : r = Except.ok (Node.file d) := by
  rw [obs_file_iff] at hr ⊢
  rw [← h]
  exact hr

theorem obs_eq_dir {r r' : Except Err Node} (h : obs r' = obs r)
    (hr : ∃ es, r = Except.ok (Node.dir es)) : ∃ es, r' = Except.ok (Node.dir es) := by
  obtain ⟨es, rfl⟩ := hr
  cases r' with
  | error e => simp [obs] at h
  | ok x =>
    cases x with
    | file d => simp [obs] at h
    | dir es' => exact ⟨es', rfl⟩

/-- Nothing resolves below a file. -/
theorem FS.file_prefix (fs : FS) (p q : Path) (d : List Byte) (x : Node)
    (hp : fs.get p = Except.ok (Node.file d)) (hq : fs.get q = Except.ok x) (h : p <+: q) :
    p = q := by
  obtain ⟨r, rfl⟩ := h
  by_cases hr : r = []
  · simp [hr]
  · obtain ⟨es, hes⟩ := FS.get_append_dir fs p r x hq hr
    rw [hp] at hes
    cases hes

/-- A successful rename of a file below `src` to an absent path outside. -/
theorem rename_frame (src : Path) (fs fs' : FS) (p T : Path) (d : List Byte) (e : Err)
    (hsrc : src <+: p) (hT : ¬ src <+: T)
    (hp : fs.get p = Except.ok (Node.file d)) (habs : fs.get T = Except.error e)
    (h : rename fs p T = (fs', none)) :
    Frame src fs fs' ∧ ∃ x, fs'.get T = Except.ok x := by
  have hp0 : p ≠ [] := by
    intro h0
    rw [h0] at hp
    cases hp
  have hT0 : T ≠ [] := by
    intro h0
    rw [h0] at habs
    cases habs
  have hpT : p ≠ T := by
    intro h0
    rw [h0, habs] at hp
    cases hp
  simp only [rename, hp, hp0, hT0, or_self, if_false, hpT, Node.isDir, Bool.false_eq_true,
    false_and, habs] at h
  split at h
  · simp at h
  · simp at h
  · rename_i es hpar
    simp only [Prod.mk.injEq, and_true] at h
    have hnp : ¬ p <+: T.dropLast := by
      intro hpre
      have := FS.file_prefix fs p _ d _ hp hpar hpre
      rw [← this, hp] at hpar
      cases hpar
    have hpar1 : ∃ es, (fs.alter p none).get T.dropLast = Except.ok (Node.dir es) :=
      obs_eq_dir (FS.alter_get_off fs p _ none hnp) ⟨es, hpar⟩
    have hnew : fs'.get T = Except.ok (Node.file d) := by
      rw [← h]
      exact FS.alter_get_same _ T _ hT0 hpar1
    refine ⟨⟨?_, ?_⟩, ⟨_, hnew⟩⟩
    · intro q d' hq hfile
      have hTq : ¬ T <+: q := by
        intro hpre
        have := FS.file_prefix fs' T q d _ hnew hfile hpre
        exact hT (this ▸ hq)
      have e1 : obs (fs'.get q) = obs ((fs.alter p none).get q) := by
        rw [← h]
        exact FS.alter_get_off _ T q _ hTq
      by_cases hpq : p <+: q
      · obtain ⟨e', he'⟩ := FS.alter_none_under fs p q hp0 hpq
        rw [he', hfile] at e1
        simp [obs] at e1
      · have e2 := FS.alter_get_off fs p q none hpq
        exact obs_eq_file (e1.trans e2) d' hfile
    · intro q hq hex
      have hpq : ¬ p <+: q := fun hpre => hq (hsrc.trans hpre)
      by_cases hTq : T <+: q
      · obtain ⟨x, hx⟩ := hex
        obtain ⟨y, hy⟩ := FS.get_prefix fs T q x hTq hx
        rw [habs] at hy
        cases hy
      · have e1 : obs (fs'.get q) = obs ((fs.alter p none).get q) := by
          rw [← h]
          exact FS.alter_get_off _ T q _ hTq
        have e2 := FS.alter_get_off fs p q none hpq
        exact obs_eq_exists (e1.trans e2) hex

/-- Removing something below `src`. -/
theorem remove_frame (src : Path) (fs : FS) (p : Path) (hsrc : src <+: p) :
    Frame src fs (remove fs p).1 := by
  simp only [remove]
  split
  · exact Frame.frame_refl src fs
  · rename_i hp0
    have key : Frame src fs (fs.alter p none) := by
      refine ⟨?_, ?_⟩
      · intro q d _ hfile
        by_cases hpq : p <+: q
        · obtain ⟨e', he'⟩ := FS.alter_none_under fs p q hp0 hpq
          rw [he'] at hfile
          cases hfile
        · exact obs_eq_file (FS.alter_get_off fs p q none hpq) d hfile
      · intro q hq hex
        have hpq : ¬ p <+: q := fun hpre => hq (hsrc.trans hpre)
        exact obs_eq_exists (FS.alter_get_off fs p q none hpq) hex
    split
    · exact Frame.frame_refl src fs
    · exact Frame.frame_refl src fs
    · exact key

/-! ## Candidates and their destinations -/

theorem guessNewImagePath_congr (E : Env) (fs fs' : FS) (p : Path)
    (h : fs.get p = fs'.get p) : guessNewImagePath E fs p = guessNewImagePath E fs' p := by
  simp only [guessNewImagePath, openFile, h]

theorem guessNewVideoPath_congr (E : Env) (fs fs' : FS) (p : Path)
    (h : fs.get p = fs'.get p) : guessNewVideoPath E fs p = guessNewVideoPath E fs' p := by
  simp only [guessNewVideoPath, openFile, h]

theorem Candidate.congr {E : Env} {fs fs' : FS} {p : Path} {np : String}
    (h : fs.get p = fs'.get p) (hc : Candidate E fs p np) : Candidate E fs' p np := by
  unfold Candidate at hc ⊢
  rw [← guessNewImagePath_congr E fs fs' p h, ← guessNewVideoPath_congr E fs fs' p h]
  exact hc

theorem Candidate.unique {E : Env} {fs : FS} {p : Path} {np np' : String}
    (h : Candidate E fs p np) (h' : Candidate E fs p np') : np = np' := by
  obtain ⟨_, h1 | h1⟩ := h <;> obtain ⟨_, h2 | h2⟩ := h'
  · have := h1.2.symm.trans h2.2
    injection this with this
    injection this
  · have e1 := h1.1
    rw [h2.1] at e1
    exact absurd e1 (by decide)
  · have e1 := h2.1
    rw [h1.1] at e1
    exact absurd e1 (by decide)
  · have := h1.2.symm.trans h2.2
    injection this

theorem length_ne_zero_ne_empty (s : String) (h : s.length ≠ 0) : s ≠ "" := by
  intro e
  rw [e] at h
  exact h rfl

/-- The destination of a candidate is not in the source tree, when the roots
are separated. -/
theorem Candidate.target_outside {E : Env} {fs : FS} {p : Path} {np : String}
    (hc : Candidate E fs p np) (src dest : Path) (hsep : Separated src dest)
    (htab : ∀ c, 127 < c.toNat → E.lowerTable c ≠ '/') : ¬ src <+: filepathJoin dest np := by
  obtain ⟨hlen, h | h⟩ := hc
  · have hne := length_ne_zero_ne_empty np hlen
    cases hopen : openFile fs p with
    | error e =>
      have := h.2
      simp only [guessNewImagePath, hopen] at this
      injection this with this
      cases this
    | ok data =>
      obtain ⟨t, ht⟩ := guessNewImagePath_path E fs p data np hopen h.2 hne
      rw [ht, filepathJoin_canonical dest _ t _ _ (Or.inl rfl)
        (extensionFor_noslash _ htab _)]
      exact hsep.not_under _ (Or.inl rfl) _
  · have hne := length_ne_zero_ne_empty np hlen
    obtain ⟨t, d, ht⟩ := guessNewVideoPath_path E fs p np h.2 hne
    rw [ht, filepathJoin_canonical dest _ t _ _ (Or.inr rfl)
      (extensionFor_noslash _ htab _)]
    exact hsep.not_under _ (Or.inr rfl) _

theorem FS.get_child (fs : FS) (T : Path) (es : List (String × Node))
    (hpar : fs.get T.dropLast = Except.ok (Node.dir es)) :
    (∃ x, fs.get T = Except.ok x) ∨ fs.get T = Except.error Err.notExist := by
  by_cases hT : T = []
  · subst hT
    exact Or.inl ⟨_, rfl⟩
  · have hsplit := List.dropLast_append_getLast hT
    generalize T.dropLast = P at hpar hsplit
    generalize T.getLast hT = n at hsplit
    subst hsplit
    have key : ∀ (t : Node) (P : Path), t.get P = Except.ok (Node.dir es) →
        (∃ x, t.get (P ++ [n]) = Except.ok x) ∨ t.get (P ++ [n]) = Except.error Err.notExist := by
      intro t P
      induction P generalizing t with
      | nil =>
        intro h
        simp only [Node.get, Except.ok.injEq] at h
        subst h
        simp only [List.nil_append, Node.get]
        cases lookupEntry es n with
        | none => exact Or.inr rfl
        | some c => exact Or.inl ⟨c, rfl⟩
      | cons m P ih =>
        intro h
        cases t with
        | file d => simp [Node.get] at h
        | dir entries =>
          simp only [Node.get, List.cons_append] at h ⊢
          cases hl : lookupEntry entries m with
          | none => simp [hl] at h
          | some c =>
            simp only [hl] at h ⊢
            exact ih c h
    exact key _ P hpar

/-- A successful `place` of a candidate of the source tree. -/
theorem place_frame (src dest : Path) (w w' : World) (p : Path) (np : String) (d : List Byte)
    (hsrc : src <+: p) (hT : ¬ src <+: filepathJoin dest np) (hlen : np.length ≠ 0)
    (hp : w.fs.get p = Except.ok (Node.file d))
    (h : place dest w p np = (w', Outcome.done none)) :
    Frame src w.fs w'.fs ∧ ∃ x, w'.fs.get (filepathJoin dest np) = Except.ok x := by
  simp only [place, hlen, if_false] at h
  split at h
  · simp at h
  · rename_i fsa hcreate
    obtain ⟨hgrow, es, hpar⟩ := createDirectoryIfNotExists_ok _ _ _ hcreate
    have hpa : fsa.get p = Except.ok (Node.file d) := by
      have := hgrow.1 p ⟨_, hp⟩
      rw [hp] at this
      exact (obs_file_iff _ d).mpr this
    split at h
    · rename_i hstat
      have habs : fsa.get (filepathJoin dest np) = Except.error Err.notExist := by
        simp only [stat] at hstat
        split at hstat
        · cases hstat
        · rename_i e he
          injection hstat with hstat
          rw [he, hstat]
      split at h
      · simp at h
      · rename_i fsb hren
        simp only [Prod.mk.injEq, and_true] at h
        subst h
        obtain ⟨hf, hx⟩ := rename_frame src fsa fsb p _ d _ hsrc hT hpa habs hren
        exact ⟨(hgrow.to_frame src).frame_trans hf, hx⟩
    · rename_i hstat
      simp only [Prod.mk.injEq, and_true] at h
      subst h
      refine ⟨hgrow.to_frame src, ?_⟩
      rcases FS.get_child fsa _ es hpar with hx | hx
      · exact hx
      · exfalso
        apply hstat
        simp only [stat, hx]

theorem stat_file (fs : FS) (p : Path) (info : FileInfo) (h : stat fs p = Except.ok info)
    (hfile : info.isDir = false) :
    info.name = baseName p ∧ ∃ d, fs.get p = Except.ok (Node.file d) := by
  simp only [stat] at h
  split at h
  · rename_i x hx
    injection h with h
    subst h
    cases x with
    | file d => exact ⟨rfl, d, hx⟩
    | dir es => simp [Node.isDir] at hfile
  · cases h

theorem stat_dir (fs : FS) (p : Path) (info : FileInfo) (h : stat fs p = Except.ok info)
    (hdir : info.isDir = true) : ∃ es, fs.get p = Except.ok (Node.dir es) := by
  simp only [stat] at h
  split at h
  · rename_i x hx
    injection h with h
    subst h
    cases x with
    | file d => simp [Node.isDir] at hdir
    | dir es => exact ⟨es, hx⟩
  · cases h

theorem place_empty (dest : Path) (w : World) (p : Path) (np : String) (h : np.length = 0) :
    place dest w p np = (w.print (Msg.noMetadata p), Outcome.done none) := by
  simp only [place, h, if_true]

theorem place_done_settles (E : Env) (src dest : Path) (hsep : Separated src dest)
    (htab : ∀ c, 127 < c.toNat → E.lowerTable c ≠ '/') (w w' : World) (p : Path) (d : List Byte) (np0 : String)
    (hsrc : src <+: p) (hget : w.fs.get p = Except.ok (Node.file d))
    (huniq : ∀ np, Candidate E w.fs p np → np = np0)
    (hcand : np0.length ≠ 0 → Candidate E w.fs p np0)
    (hpl : place dest w p np0 = (w', Outcome.done none)) :
    Frame src w.fs w'.fs ∧
    ∀ np, Candidate E w.fs p np → ∃ x, w'.fs.get (filepathJoin dest np) = Except.ok x := by
  by_cases hlen : np0.length = 0
  · rw [place_empty dest w p np0 hlen] at hpl
    simp only [Prod.mk.injEq, and_true] at hpl
    subst hpl
    refine ⟨Frame.frame_refl _ _, ?_⟩
    intro np hc
    have := huniq np hc
    subst this
    exact absurd hlen hc.1
  · have hc := hcand hlen
    obtain ⟨hf, hx⟩ := place_frame src dest w w' p np0 d hsrc
      (hc.target_outside src dest hsep htab) hlen hget hpl
    refine ⟨hf, ?_⟩
    intro np hc'
    rw [huniq np hc']
    exact hx

/-- The first callback on a file of the source tree, when it returns no
error: the frame holds and the destination of the file, if it is a
candidate, exists afterwards. -/
theorem moveStep_file_done (E : Env) (src dest : Path) (hsep : Separated src dest)
    (htab : ∀ c, 127 < c.toNat → E.lowerTable c ≠ '/') (w w' : World) (p : Path) (info : FileInfo)
    (hsrc : src <+: p) (hstat : stat w.fs p = Except.ok info) (hfile : info.isDir = false)
    (h : moveStep E dest w p (some info) none = (w', Outcome.done none)) :
    Frame src w.fs w'.fs ∧
    ∀ np, Candidate E w.fs p np → ∃ x, w'.fs.get (filepathJoin dest np) = Except.ok x := by
  obtain ⟨hname, d, hget⟩ := stat_file _ _ _ hstat hfile
  simp only [moveStep, hfile, Bool.not_false, if_true, hname] at h
  by_cases himg : stringsToLower E.lowerTable (filepathExt (baseName p)) = ".jpg" ∨
      stringsToLower E.lowerTable (filepathExt (baseName p)) = ".jpeg" ∨
      stringsToLower E.lowerTable (filepathExt (baseName p)) = ".dng"
  · have hnotmp4 : stringsToLower E.lowerTable (filepathExt (baseName p)) ≠ ".mp4" := by
      intro h4
      rw [h4] at himg
      exact absurd himg (by decide)
    rw [if_pos himg] at h
    split at h
    · simp at h
    · rename_i e hg
      simp only [Prod.mk.injEq, and_true] at h
      subst h
      refine ⟨Frame.frame_refl _ _, ?_⟩
      intro np hc
      rcases hc with ⟨_, hc | hc⟩
      · rw [hg] at hc
        have := hc.2
        injection this with this
        cases this
      · exact absurd hc.1 hnotmp4
    · rename_i np0 hg
      refine place_done_settles E src dest hsep htab w w' p d np0 hsrc hget ?_ ?_ h
      · intro np hc
        rcases hc with ⟨_, hc | hc⟩
        · have := hg.symm.trans hc.2
          injection this with this
          injection this with this
          exact this.symm
        · exact absurd hc.1 hnotmp4
      · intro hlen
        exact ⟨hlen, Or.inl ⟨himg, hg⟩⟩
  · rw [if_neg himg] at h
    by_cases hmp4 : stringsToLower E.lowerTable (filepathExt (baseName p)) = ".mp4"
    · rw [if_pos hmp4] at h
      split at h
      · rename_i e hg
        simp only [Prod.mk.injEq, and_true] at h
        subst h
        refine ⟨Frame.frame_refl _ _, ?_⟩
        intro np hc
        rcases hc with ⟨_, hc | hc⟩
        · exact absurd hc.1 himg
        · rw [hg] at hc
          have := hc.2
          cases this
      · rename_i np0 hg
        refine place_done_settles E src dest hsep htab w w' p d np0 hsrc hget ?_ ?_ h
        · intro np hc
          rcases hc with ⟨_, hc | hc⟩
          · exact absurd hc.1 himg
          · have := hg.symm.trans hc.2
            injection this with this
            exact this.symm
        · intro hlen
          exact ⟨hlen, Or.inr ⟨hmp4, hg⟩⟩
    · rw [if_neg hmp4] at h
      simp only [Prod.mk.injEq, and_true] at h
      subst h
      refine ⟨Frame.frame_refl _ _, ?_⟩
      intro np hc
      rcases hc with ⟨_, hc | hc⟩
      · exact absurd hc.1 himg
      · exact absurd hc.1 hmp4

/-! ## The first walk settles the source tree -/

theorem Settled.under_frame {E : Env} {src dest root : Path} {fs fs' : FS}
    (hsep : Separated src dest) (htab : ∀ c, 127 < c.toNat → E.lowerTable c ≠ '/') (hroot : src <+: root)
    (hs : Settled E dest fs root) (hf : Frame src fs fs') : Settled E dest fs' root := by
  intro p d np hp hfile hc
  have hold := hf.1 p d (hroot.trans hp) hfile
  have hc' : Candidate E fs p np := hc.congr (hfile.trans hold.symm)
  exact hf.2 _ (hc'.target_outside src dest hsep htab) (hs p d np hp hold hc')

theorem Settled.mono {E : Env} {dest root root' : Path} {fs : FS}
    (hs : Settled E dest fs root) (h : root <+: root') : Settled E dest fs root' :=
  fun p d np hp => hs p d np (h.trans hp)

theorem moveStep_dir (E : Env) (dest : Path) (w : World) (p : Path) (info : FileInfo)
    (hdir : info.isDir = true) :
    moveStep E dest w p (some info) none = (w, Outcome.done none) := by
  simp [moveStep, hdir]

theorem moveStep_error (E : Env) (dest : Path) (w : World) (p : Path)
    (info : Option FileInfo) (e : Err) :
    moveStep E dest w p info (some e) = (w, Outcome.done (some e)) := rfl

theorem Node.get_append (t y : Node) (P Q : Path) (h : t.get P = Except.ok y) :
    t.get (P ++ Q) = y.get Q := by
  induction P generalizing t with
  | nil =>
    simp only [Node.get, Except.ok.injEq] at h
    subst h
    rfl
  | cons n P ih =>
    cases t with
    | file d => simp [Node.get] at h
    | dir es =>
      simp only [Node.get, List.cons_append] at h ⊢
      cases hl : lookupEntry es n with
      | none => simp [hl] at h
      | some c =>
        simp only [hl] at h ⊢
        exact ih c h

theorem lookupEntry_mem (es : List (String × Node)) (n : String) (c : Node)
    (h : lookupEntry es n = some c) : n ∈ es.map Prod.fst := by
  induction es with
  | nil => simp [lookupEntry] at h
  | cons e rest ih =>
    obtain ⟨m, x⟩ := e
    simp only [lookupEntry] at h
    by_cases hm : m = n
    · simp [hm]
    · simp only [hm, if_false] at h
      simp [ih h]

/-- An entry through which a path resolves is among the names read. -/
theorem mem_readDirNames (fs : FS) (path : Path) (n : String) (r : Path) (x : Node)
    (names : List String) (hnames : readDirNames fs path = Except.ok names)
    (hx : fs.get (path ++ n :: r) = Except.ok x) : n ∈ names := by
  simp only [readDirNames] at hnames
  split at hnames
  · rename_i es hes
    injection hnames with hnames
    subst hnames
    have := Node.get_append _ _ path (n :: r) hes
    simp only [FS.get] at hx
    rw [this] at hx
    simp only [Node.get] at hx
    cases hl : lookupEntry es n with
    | none => simp [hl] at hx
    | some c =>
      rw [(List.perm_insertionSort _ _).mem_iff, List.mem_dedup]
      exact lookupEntry_mem es n c hl
  · cases hnames
  · cases hnames

theorem readDirNames_dir (fs : FS) (path : Path) (es : List (String × Node))
    (h : fs.get path = Except.ok (Node.dir es)) :
    ∃ names, readDirNames fs path = Except.ok names := by
  simp only [readDirNames, h]
  exact ⟨_, rfl⟩

theorem forNames_move_settles (E : Env) (src dest : Path) (hsep : Separated src dest)
    (htab : ∀ c, 127 < c.toNat → E.lowerTable c ≠ '/') (descend : World → Path → FileInfo → World × Outcome)
    (IH : ∀ (w w' : World) (path : Path) (info : FileInfo), src <+: path →
      stat w.fs path = Except.ok info → descend w path info = (w', Outcome.done none) →
      Frame src w.fs w'.fs ∧ Settled E dest w'.fs path)
    (path : Path) (hsrc : src <+: path) :
    ∀ (names : List String) (w w' : World),
      forNames (visitEntry (moveStep E dest) descend) path names w = (w', Outcome.done none) →
      Frame src w.fs w'.fs ∧ ∀ n ∈ names, Settled E dest w'.fs (path ++ [n]) := by
  intro names
  induction names with
  | nil =>
    intro w w' h
    simp only [forNames, Prod.mk.injEq, and_true] at h
    subst h
    exact ⟨Frame.frame_refl _ _, fun n hn => absurd hn (List.not_mem_nil n)⟩
  | cons name rest ih =>
    intro w w' h
    have hsub : src <+: path ++ [name] := hsrc.trans (List.prefix_append _ _)
    simp only [forNames] at h
    split at h
    · rename_i w1 hvisit
      simp only [visitEntry] at hvisit
      split at hvisit
      · rw [moveStep_error] at hvisit
        simp at hvisit
      · rename_i fi hfi
        obtain ⟨hf1, hs1⟩ := IH w w1 _ fi hsub hfi hvisit
        obtain ⟨hf2, hs2⟩ := ih w1 w' h
        refine ⟨hf1.frame_trans hf2, ?_⟩
        intro n hn
        rcases List.mem_cons.mp hn with rfl | hn
        · exact hs1.under_frame hsep htab hsub hf2
        · exact hs2 n hn
    · rename_i hne
      exfalso
      generalize visitEntry (moveStep E dest) descend w (path ++ [name]) = r at h hne
      obtain ⟨w1, o⟩ := r
      simp only [Prod.mk.injEq] at h
      obtain ⟨rfl, rfl⟩ := h
      exact hne w1 rfl

/-- A walk of the first pass that returns no error leaves every candidate
file below its root with its destination in place. -/
theorem walk_move_settles (E : Env) (src dest : Path) (hsep : Separated src dest)
    (htab : ∀ c, 127 < c.toNat → E.lowerTable c ≠ '/') :
    ∀ (fuel : Nat) (w w' : World) (path : Path) (info : FileInfo), src <+: path →
      stat w.fs path = Except.ok info →
      walk (moveStep E dest) fuel w path info = (w', Outcome.done none) →
      Frame src w.fs w'.fs ∧ Settled E dest w'.fs path := by
  intro fuel
  induction fuel with
  | zero =>
    intro w w' path info _ _ h
    simp [walk] at h
  | succ fuel ih =>
    intro w w' path info hsrc hstat h
    simp only [walk] at h
    cases hdir : info.isDir with
    | false =>
      simp only [hdir, Bool.not_false, if_true] at h
      obtain ⟨hf, hcand⟩ := moveStep_file_done E src dest hsep htab w w' path info hsrc hstat
        hdir h
      refine ⟨hf, ?_⟩
      obtain ⟨_, d0, hget0⟩ := stat_file _ _ _ hstat hdir
      intro p d np hp hfile hc
      have hold := hf.1 p d (hsrc.trans hp) hfile
      have hpp := FS.file_prefix w.fs path p d0 _ hget0 hold hp
      subst hpp
      exact hcand np (hc.congr (hfile.trans hold.symm))
    | true =>
      simp only [hdir, Bool.not_true, Bool.false_eq_true, if_false] at h
      obtain ⟨es, hes⟩ := stat_dir _ _ _ hstat hdir
      obtain ⟨names, hnames⟩ := readDirNames_dir _ _ _ hes
      simp only [hnames, moveStep_dir E dest w path info hdir] at h
      obtain ⟨hf, hs⟩ := forNames_move_settles E src dest hsep htab _ (ih) path hsrc names w w' h
      refine ⟨hf, ?_⟩
      intro p d np hp hfile hc
      have hold := hf.1 p d (hsrc.trans hp) hfile
      obtain ⟨r, rfl⟩ := hp
      cases r with
      | nil =>
        rw [List.append_nil, hes] at hold
        cases hold
      | cons n r =>
        have hn := mem_readDirNames w.fs path n r _ names hnames hold
        have hpre : path ++ [n] <+: path ++ n :: r := by
          have : path ++ n :: r = (path ++ [n]) ++ r := by simp
          rw [this]
          exact List.prefix_append _ _
        exact hs n hn _ d np hpre hfile hc

theorem filepathWalk_move_settles (E : Env) (src dest : Path) (hsep : Separated src dest)
    (htab : ∀ c, 127 < c.toNat → E.lowerTable c ≠ '/') (fuel : Nat) (w w' : World)
    (h : filepathWalk (moveStep E dest) fuel w src = (w', Outcome.done none)) :
    Frame src w.fs w'.fs ∧ Settled E dest w'.fs src := by
  simp only [filepathWalk] at h
  split at h
  · rw [moveStep_error] at h
    simp at h
  · rename_i info hstat
    exact walk_move_settles E src dest hsep htab fuel w w' src info (List.prefix_refl _) hstat h

/-! ## Invariants of a walk -/

theorem forNames_invariant (fn : WalkFn) (root : Path) (I : World → Prop)
    (hfn : ∀ w p info err, I w → root <+: p →
      (∀ i, info = some i → stat w.fs p = Except.ok i) → I (fn w p info err).1)
    (descend : World → Path → FileInfo → World × Outcome)
    (IH : ∀ (w : World) (path : Path) (info : FileInfo), root <+: path →
      stat w.fs path = Except.ok info → I w → I (descend w path info).1)
    (path : Path) (hroot : root <+: path) :
    ∀ (names : List String) (w : World), I w →
      I (forNames (visitEntry fn descend) path names w).1 := by
  intro names
  induction names with
  | nil => intro w hw; exact hw
  | cons name rest ih =>
    intro w hw
    have hsub : root <+: path ++ [name] := hroot.trans (List.prefix_append _ _)
    have hvisit : I (visitEntry fn descend w (path ++ [name])).1 := by
      simp only [visitEntry]
      split
      · exact hfn w _ none _ hw hsub (fun i hi => by cases hi)
      · rename_i fi hfi
        exact IH w _ fi hsub hfi hw
    simp only [forNames]
    generalize visitEntry fn descend w (path ++ [name]) = r at hvisit
    split
    · exact ih _ hvisit
    · exact hvisit

theorem walk_invariant (fn : WalkFn) (root : Path) (I : World → Prop)
    (hfn : ∀ w p info err, I w → root <+: p →
      (∀ i, info = some i → stat w.fs p = Except.ok i) → I (fn w p info err).1) :
    ∀ (fuel : Nat) (w : World) (path : Path) (info : FileInfo), root <+: path →
      stat w.fs path = Except.ok info → I w → I (walk fn fuel w path info).1 := by
  intro fuel
  induction fuel with
  | zero => intro w path info _ _ hw; exact hw
  | succ fuel ih =>
    intro w path info hroot hstat hw
    have hcall : ∀ err, I (fn w path (some info) err).1 := fun err =>
      hfn w path (some info) err hw hroot (fun i hi => by injection hi with hi; rw [← hi]; exact hstat)
    simp only [walk]
    split
    · exact hcall none
    · split
      · exact hcall _
      · rename_i names _
        have h0 := hcall none
        generalize fn w path (some info) none = r at h0
        split
        · exact forNames_invariant fn root I hfn _ ih path hroot names _ h0
        · exact h0

theorem filepathWalk_invariant (fn : WalkFn) (root : Path) (I : World → Prop)
    (hfn : ∀ w p info err, I w → root <+: p →
      (∀ i, info = some i → stat w.fs p = Except.ok i) → I (fn w p info err).1)
    (fuel : Nat) (w : World) (hw : I w) : I (filepathWalk fn fuel w root).1 := by
  simp only [filepathWalk]
  split
  · exact hfn w root none _ hw (List.prefix_refl _) (fun i hi => by cases hi)
  · rename_i info hstat
    exact walk_invariant fn root I hfn fuel w root info (List.prefix_refl _) hstat hw

/-- The second callback changes the tree only by removing something below
the entry it is called on. -/
theorem pruneStep_frame (src : Path) (w : World) (p : Path) (info : Option FileInfo)
    (err : Option Err) (hsrc : src <+: p) : Frame src w.fs (pruneStep w p info err).1.fs := by
  have hrm := remove_frame src w.fs p hsrc
  simp only [pruneStep]
  split
  · exact Frame.frame_refl _ _
  · split
    · exact Frame.frame_refl _ _
    · split
      · split
        · exact Frame.frame_refl _ _
        · split
          · split
            · rename_i heq
              rw [heq] at hrm
              exact hrm
            · rename_i heq
              rw [heq] at hrm
              exact hrm
          · exact Frame.frame_refl _ _
      · exact Frame.frame_refl _ _

theorem pruneStep_no_move (w : World) (p : Path) (info : Option FileInfo) (err : Option Err)
    (hw : ∀ m ∈ w.out, m.isMoved = false) :
    ∀ m ∈ (pruneStep w p info err).1.out, m.isMoved = false := by
  have hprint : ∀ (fs : FS) (m0 : Msg), m0.isMoved = false →
      ∀ m ∈ (World.print { w with fs := fs } m0).out, m.isMoved = false := by
    intro fs m0 hm0 m hm
    simp only [World.print, List.mem_append, List.mem_singleton] at hm
    rcases hm with hm | hm
    · exact hw m hm
    · rw [hm]; exact hm0
  simp only [pruneStep]
  split
  · exact hw
  · split
    · exact hw
    · split
      · split
        · exact hprint w.fs _ rfl
        · split
          · split
            · exact hprint _ _ rfl
            · exact hprint _ _ rfl
          · exact hw
      · exact hw

/-! ## The second run -/

theorem print_out (w : World) (m0 : Msg) (h0 : m0.isMoved = false) :
    (w.print m0).fs = w.fs ∧ ∀ m ∈ (w.print m0).out, m ∈ w.out ∨ m.isMoved = false := by
  refine ⟨rfl, ?_⟩
  intro m hm
  simp only [World.print, List.mem_append, List.mem_singleton] at hm
  rcases hm with hm | hm
  · exact Or.inl hm
  · exact Or.inr (hm ▸ h0)

theorem place_settled (dest : Path) (w : World) (p : Path) (np : String)
    (hall : np.length ≠ 0 → ∃ x, w.fs.get (filepathJoin dest np) = Except.ok x) :
    (place dest w p np).1.fs = w.fs ∧
    ∀ m ∈ (place dest w p np).1.out, m ∈ w.out ∨ m.isMoved = false := by
  by_cases hlen : np.length = 0
  · rw [place_empty dest w p np hlen]
    exact print_out w _ rfl
  · obtain ⟨x, hx⟩ := hall hlen
    rw [place_existing dest w p np x hlen hx]
    exact print_out w _ rfl

/-- In a state where the destination of every candidate exists, the first
callback renames nothing: the tree is unchanged and no line `moved` is
printed. -/
theorem moveStep_settled (E : Env) (dest : Path) (w : World) (p : Path)
    (info : Option FileInfo) (err : Option Err)
    (hstat : ∀ i, info = some i → stat w.fs p = Except.ok i)
    (hall : ∀ np, Candidate E w.fs p np →
      ∃ x, w.fs.get (filepathJoin dest np) = Except.ok x) :
    (moveStep E dest w p info err).1.fs = w.fs ∧
    ∀ m ∈ (moveStep E dest w p info err).1.out, m ∈ w.out ∨ m.isMoved = false := by
  have hsame : w.fs = w.fs ∧ ∀ m ∈ w.out, m ∈ w.out ∨ m.isMoved = false :=
    ⟨rfl, fun m hm => Or.inl hm⟩
  cases err with
  | some e => exact hsame
  | none =>
    cases info with
    | none => exact hsame
    | some info =>
      cases hdir : info.isDir with
      | true =>
        rw [moveStep_dir E dest w p info hdir]
        exact hsame
      | false =>
        obtain ⟨hname, d, hget⟩ := stat_file _ _ _ (hstat info rfl) hdir
        simp only [moveStep, hdir, Bool.not_false, if_true, hname]
        by_cases himg : stringsToLower E.lowerTable (filepathExt (baseName p)) = ".jpg" ∨
            stringsToLower E.lowerTable (filepathExt (baseName p)) = ".jpeg" ∨
            stringsToLower E.lowerTable (filepathExt (baseName p)) = ".dng"
        · rw [if_pos himg]
          split
          · exact hsame
          · exact print_out w _ rfl
          · rename_i np0 hg
            exact place_settled dest w p np0
              (fun hlen => hall np0 ⟨hlen, Or.inl ⟨himg, hg⟩⟩)
        · rw [if_neg himg]
          by_cases hmp4 : stringsToLower E.lowerTable (filepathExt (baseName p)) = ".mp4"
          · rw [if_pos hmp4]
            split
            · exact print_out w _ rfl
            · rename_i np0 hg
              exact place_settled dest w p np0
                (fun hlen => hall np0 ⟨hlen, Or.inr ⟨hmp4, hg⟩⟩)
          · rw [if_neg hmp4]
            exact hsame

theorem moveStep_candidate_existing (E : Env) (dest : Path) (w : World) (p : Path)
    (info : FileInfo) (np : String) (x : Node)
    (hstat : stat w.fs p = Except.ok info) (hfile : info.isDir = false)
    (hc : Candidate E w.fs p np) (hx : w.fs.get (filepathJoin dest np) = Except.ok x) :
    moveStep E dest w p (some info) none = (w.print (Msg.duplicate p), Outcome.done none) := by
  obtain ⟨hname, d, hget⟩ := stat_file _ _ _ hstat hfile
  have hpl := place_existing dest w p np x hc.1 hx
  simp only [moveStep, hfile, Bool.not_false, if_true, hname]
  rcases hc.2 with ⟨hext, hg⟩ | ⟨hext, hg⟩
  · rw [if_pos hext]
    simp only [hg, hpl]
  · have hnot : ¬ (stringsToLower E.lowerTable (filepathExt (baseName p)) = ".jpg" ∨
        stringsToLower E.lowerTable (filepathExt (baseName p)) = ".jpeg" ∨
        stringsToLower E.lowerTable (filepathExt (baseName p)) = ".dng") := by
      rw [hext]
      decide
    rw [if_neg hnot, if_pos hext]
    simp only [hg, hpl]

theorem Candidate.isFile {E : Env} {fs : FS} {p : Path} {np : String}
    (hc : Candidate E fs p np) : ∃ d, fs.get p = Except.ok (Node.file d) := by
  have hopen : ∃ d, openFile fs p = Except.ok d := by
    cases ho : openFile fs p with
    | ok d => exact ⟨d, rfl⟩
    | error e =>
      exfalso
      rcases hc.2 with ⟨_, hg⟩ | ⟨_, hg⟩
      · simp only [guessNewImagePath, ho] at hg
        injection hg with hg
        cases hg
      · simp only [guessNewVideoPath, ho] at hg
        cases hg
  obtain ⟨d, hd⟩ := hopen
  simp only [openFile] at hd
  split at hd
  · rename_i d' hget
    exact ⟨d', hget⟩
  · cases hd
  · cases hd

/-! ## The second run returns -/

theorem lookupEntry_height (es : List (String × Node)) (n : String) (c : Node)
    (h : lookupEntry es n = some c) : c.height + 1 ≤ heightList es := by
  induction es with
  | nil => simp [lookupEntry] at h
  | cons e rest ih =>
    obtain ⟨m, x⟩ := e
    simp only [lookupEntry] at h
    simp only [heightList]
    split at h
    · injection h with h
      subst h
      exact Nat.le_max_left _ _
    · exact (ih h).trans (Nat.le_max_right _ _)

theorem Node.get_length_le (t : Node) (q : Path) (x : Node) (h : t.get q = Except.ok x) :
    q.length ≤ t.height := by
  induction q generalizing t with
  | nil => exact Nat.zero_le _
  | cons name rest ih =>
    cases t with
    | file d => simp [Node.get] at h
    | dir entries =>
      simp only [Node.get] at h
      cases hl : lookupEntry entries name with
      | none => simp [hl] at h
      | some child =>
        simp only [hl] at h
        have h1 := ih child h
        have h2 := lookupEntry_height entries name child hl
        simp only [Node.height, List.length_cons]
        omega

/-- Every path that resolves is at most as long as the tree is high. -/
theorem stat_length_le (fs : FS) (q : Path) (info : FileInfo)
    (h : stat fs q = Except.ok info) : q.length ≤ fs.height := by
  simp only [stat] at h
  split at h
  · rename_i x hx
    exact Node.get_length_le _ q x hx
  · cases h

theorem place_returns (dest : Path) (w : World) (p : Path) (np : String) :
    (place dest w p np).2 ≠ Outcome.outOfFuel := by
  simp only [place]
  split
  · intro h; cases h
  · split
    · intro h; cases h
    · split
      · split
        · intro h; cases h
        · intro h; cases h
      · intro h; cases h

theorem moveStep_returns (E : Env) (dest : Path) (w : World) (p : Path)
    (info : Option FileInfo) (err : Option Err) :
    (moveStep E dest w p info err).2 ≠ Outcome.outOfFuel := by
  simp only [moveStep]
  split
  · intro h; cases h
  · split
    · intro h; cases h
    · split
      · split
        · split
          · intro h; cases h
          · intro h; cases h
          · exact place_returns _ _ _ _
        · split
          · split
            · intro h; cases h
            · exact place_returns _ _ _ _
          · intro h; cases h
      · intro h; cases h

theorem pruneStep_returns (w : World) (p : Path) (info : Option FileInfo) (err : Option Err) :
    (pruneStep w p info err).2 ≠ Outcome.outOfFuel := by
  simp only [pruneStep]
  split
  · intro h; cases h
  · split
    · intro h; cases h
    · split
      · split
        · intro h; cases h
        · split
          · split
            · intro h; cases h
            · intro h; cases h
          · intro h; cases h
      · intro h; cases h

/-- Removing brings no new path. -/
theorem remove_paths (fs : FS) (p q : Path) (x : Node)
    (h : (remove fs p).1.get q = Except.ok x) : ∃ y, fs.get q = Except.ok y := by
  simp only [remove] at h
  split at h
  · exact ⟨x, h⟩
  · rename_i hp0
    have key : ∀ x, (fs.alter p none).get q = Except.ok x → ∃ y, fs.get q = Except.ok y := by
      intro x hx
      by_cases hpq : p <+: q
      · obtain ⟨e, he⟩ := FS.alter_none_under fs p q hp0 hpq
        rw [he] at hx
        cases hx
      · exact obs_eq_exists (FS.alter_get_off fs p q none hpq).symm ⟨x, hx⟩
    split at h
    · exact ⟨x, h⟩
    · exact ⟨x, h⟩
    · exact key x h

theorem pruneStep_paths (w : World) (p : Path) (info : Option FileInfo) (err : Option Err)
    (q : Path) (x : Node) (h : (pruneStep w p info err).1.fs.get q = Except.ok x) :
    ∃ y, w.fs.get q = Except.ok y := by
  have hrm := remove_paths w.fs p q
  simp only [pruneStep] at h
  split at h
  · exact ⟨x, h⟩
  · split at h
    · exact ⟨x, h⟩
    · split at h
      · split at h
        · exact ⟨x, h⟩
        · split at h
          · split at h
            · rename_i heq
              rw [heq] at hrm
              exact hrm x h
            · rename_i heq
              rw [heq] at hrm
              exact hrm x h
          · exact ⟨x, h⟩
      · exact ⟨x, h⟩

theorem forNames_returns (fn : WalkFn) (root : Path) (I : World → Prop)
    (hfn : ∀ w p info err, I w → root <+: p →
      (∀ i, info = some i → stat w.fs p = Except.ok i) → I (fn w p info err).1)
    (hout : ∀ w p info err, (fn w p info err).2 ≠ Outcome.outOfFuel)
    (descend : World → Path → FileInfo → World × Outcome)
    (IH : ∀ (w : World) (path : Path) (info : FileInfo), root <+: path →
      stat w.fs path = Except.ok info → I w → I (descend w path info).1)
    (path : Path) (hroot : root <+: path)
    (IHo : ∀ (w : World) (name : String) (info : FileInfo),
      stat w.fs (path ++ [name]) = Except.ok info → I w →
      (descend w (path ++ [name]) info).2 ≠ Outcome.outOfFuel) :
    ∀ (names : List String) (w : World), I w →
      (forNames (visitEntry fn descend) path names w).2 ≠ Outcome.outOfFuel := by
  intro names
  induction names with
  | nil => intro w _ h; cases h
  | cons name rest ih =>
    intro w hw
    have hsub : root <+: path ++ [name] := hroot.trans (List.prefix_append _ _)
    have hvisit : I (visitEntry fn descend w (path ++ [name])).1 ∧
        (visitEntry fn descend w (path ++ [name])).2 ≠ Outcome.outOfFuel := by
      simp only [visitEntry]
      split
      · exact ⟨hfn w _ none _ hw hsub (fun i hi => by cases hi), hout _ _ _ _⟩
      · rename_i fi hfi
        exact ⟨IH w _ fi hsub hfi hw, IHo w name fi hfi hw⟩
    simp only [forNames]
    generalize visitEntry fn descend w (path ++ [name]) = r at hvisit
    split
    · exact ih _ hvisit.1
    · exact hvisit.2

/-- A walk whose fuel exceeds the depth left below its entry returns: it does
not end for lack of fuel. `I` is an invariant of the callback under which no
path that resolves has `N` components or more. -/
theorem walk_returns (fn : WalkFn) (root : Path) (I : World → Prop) (N : Nat)
    (hfn : ∀ w p info err, I w → root <+: p →
      (∀ i, info = some i → stat w.fs p = Except.ok i) → I (fn w p info err).1)
    (hout : ∀ w p info err, (fn w p info err).2 ≠ Outcome.outOfFuel)
    (hI : ∀ (w : World) (q : Path) (info : FileInfo), I w →
      stat w.fs q = Except.ok info → q.length < N) :
    ∀ (fuel : Nat) (w : World) (path : Path) (info : FileInfo), root <+: path →
      N ≤ path.length + fuel → stat w.fs path = Except.ok info → I w →
      (walk fn fuel w path info).2 ≠ Outcome.outOfFuel := by
  intro fuel
  induction fuel with
  | zero =>
    intro w path info _ hN hstat hw
    have := hI w path info hw hstat
    omega
  | succ fuel ih =>
    intro w path info hroot hN hstat hw
    have hcall : ∀ err, I (fn w path (some info) err).1 := fun err =>
      hfn w path (some info) err hw hroot (fun i hi => by injection hi with hi; rw [← hi]; exact hstat)
    simp only [walk]
    split
    · exact hout _ _ _ _
    · split
      · exact hout _ _ _ _
      · rename_i names _
        have h0 := hcall none
        have h1 := hout w path (some info) none
        generalize fn w path (some info) none = r at h0 h1
        split
        · refine forNames_returns fn root I hfn hout _ (walk_invariant fn root I hfn fuel)
            path hroot ?_ names _ h0
          intro w2 name fi hfi hw2
          refine ih w2 (path ++ [name]) fi (hroot.trans (List.prefix_append _ _)) ?_ hfi hw2
          simp only [List.length_append, List.length_singleton]
          omega
        · exact h1

theorem filepathWalk_returns (fn : WalkFn) (root : Path) (I : World → Prop) (N : Nat)
    (hfn : ∀ w p info err, I w → root <+: p →
      (∀ i, info = some i → stat w.fs p = Except.ok i) → I (fn w p info err).1)
    (hout : ∀ w p info err, (fn w p info err).2 ≠ Outcome.outOfFuel)
    (hI : ∀ (w : World) (q : Path) (info : FileInfo), I w →
      stat w.fs q = Except.ok info → q.length < N)
    (fuel : Nat) (hN : N ≤ root.length + fuel) (w : World) (hw : I w) :
    (filepathWalk fn fuel w root).2 ≠ Outcome.outOfFuel := by
  simp only [filepathWalk]
  split
  · exact hout _ _ _ _
  · rename_i info hstat
    exact walk_returns fn root I N hfn hout hI fuel w root info (List.prefix_refl _) hN hstat hw

/-- C4 as amended: for separated roots, if `run` completes without error,
then a second `run` on the resulting tree renames nothing: it prints no line
`moved`, its first pass leaves the tree as it is, and every file of the
source tree for which a path is derived is reported as a duplicate. The
second run returns, that is, it does not end for lack of fuel, as soon as
its fuel exceeds the depth of the tree below the source root. The Unicode
table is any rune map that yields no slash for a rune above `0x7F`. -/
theorem run_twice_no_rename (E : Env) (src dest : Path) (hsep : Separated src dest)
    (htab : ∀ c, 127 < c.toNat → E.lowerTable c ≠ '/') (fuel : Nat) (w0 w1 : World)
    (h : run E fuel src dest w0 = (w1, Outcome.done none)) (fuel2 : Nat) :
    (∀ m ∈ (run E fuel2 src dest ⟨w1.fs, []⟩).1.out, m.isMoved = false) ∧
    (filepathWalk (moveStep E dest) fuel2 ⟨w1.fs, []⟩ src).1.fs = w1.fs ∧
    (∀ (out : List Msg) (p : Path) (info : FileInfo) (np : String), src <+: p →
      stat w1.fs p = Except.ok info → info.isDir = false → Candidate E w1.fs p np →
      moveStep E dest ⟨w1.fs, out⟩ p (some info) none =
        (⟨w1.fs, out ++ [Msg.duplicate p]⟩, Outcome.done none)) ∧
    (w1.fs.height < src.length + fuel2 →
      (run E fuel2 src dest ⟨w1.fs, []⟩).2 ≠ Outcome.outOfFuel) := by
  -- the first run settles the source tree
  have hset : Settled E dest w1.fs src := by
    simp only [run] at h
    split at h
    · rename_i wa hpass1
      obtain ⟨_, hsa⟩ := filepathWalk_move_settles E src dest hsep htab fuel w0 wa hpass1
      have hframe : Frame src wa.fs (filepathWalk pruneStep fuel wa src).1.fs :=
        filepathWalk_invariant pruneStep src (fun w => Frame src wa.fs w.fs)
          (fun w p info err hw hp _ => hw.frame_trans (pruneStep_frame src w p info err hp))
          fuel wa (Frame.frame_refl _ _)
      rw [h] at hframe
      exact hsa.under_frame hsep htab (List.prefix_refl _) hframe
    · rename_i hne
      exfalso
      generalize filepathWalk (moveStep E dest) fuel w0 src = r at h hne
      obtain ⟨wa, o⟩ := r
      simp only [Prod.mk.injEq] at h
      obtain ⟨rfl, rfl⟩ := h
      exact hne wa rfl
  -- the first callback keeps the tree and prints no `moved`
  have hstep : ∀ (w : World) (p : Path) (info : Option FileInfo) (err : Option Err),
      (w.fs = w1.fs ∧ ∀ m ∈ w.out, m.isMoved = false) → src <+: p →
      (∀ i, info = some i → stat w.fs p = Except.ok i) →
      ((moveStep E dest w p info err).1.fs = w1.fs ∧
        ∀ m ∈ (moveStep E dest w p info err).1.out, m.isMoved = false) := by
    intro w p info err hw hp hstat
    have hall : ∀ np, Candidate E w.fs p np →
        ∃ x, w.fs.get (filepathJoin dest np) = Except.ok x := by
      intro np hc
      obtain ⟨d, hd⟩ := hc.isFile
      have := hset p d np hp (hw.1 ▸ hd) (hw.1 ▸ hc)
      rw [hw.1]
      exact this
    obtain ⟨e1, e2⟩ := moveStep_settled E dest w p info err hstat hall
    refine ⟨e1.trans hw.1, ?_⟩
    intro m hm
    rcases e2 m hm with h1 | h1
    · exact hw.2 m h1
    · exact h1
  have hpass1 : (filepathWalk (moveStep E dest) fuel2 ⟨w1.fs, []⟩ src).1.fs = w1.fs ∧
      ∀ m ∈ (filepathWalk (moveStep E dest) fuel2 ⟨w1.fs, []⟩ src).1.out,
        m.isMoved = false :=
    filepathWalk_invariant (moveStep E dest) src
      (fun w => w.fs = w1.fs ∧ ∀ m ∈ w.out, m.isMoved = false) hstep fuel2 ⟨w1.fs, []⟩
      ⟨rfl, fun m hm => absurd hm (List.not_mem_nil m)⟩
  refine ⟨?_, hpass1.1, ?_, ?_⟩
  · simp only [run]
    generalize filepathWalk (moveStep E dest) fuel2 ⟨w1.fs, []⟩ src = r at hpass1
    split
    · exact filepathWalk_invariant pruneStep src (fun w => ∀ m ∈ w.out, m.isMoved = false)
        (fun w p info err hw _ _ => pruneStep_no_move w p info err hw) fuel2 _ hpass1.2
    · exact hpass1.2
  · intro out p info np hp hstat hfile hc
    obtain ⟨d, hd⟩ := hc.isFile
    obtain ⟨x, hx⟩ := hset p d np hp hd hc
    exact moveStep_candidate_existing E dest ⟨w1.fs, out⟩ p info np x hstat hfile hc hx
  · intro hfuel
    -- the first pass walks a tree that stays as it is
    have hret1 : (filepathWalk (moveStep E dest) fuel2 ⟨w1.fs, []⟩ src).2 ≠
        Outcome.outOfFuel := by
      refine filepathWalk_returns (moveStep E dest) src
        (fun w => w.fs = w1.fs ∧ ∀ m ∈ w.out, m.isMoved = false) (w1.fs.height + 1) hstep
        (moveStep_returns E dest) ?_ fuel2 (by omega) ⟨w1.fs, []⟩
        ⟨rfl, fun m hm => absurd hm (List.not_mem_nil m)⟩
      intro w q info hw hs
      have hle := stat_length_le w.fs q info hs
      rw [hw.1] at hle
      omega
    -- the second pass only removes
    have hfs := hpass1.1
    simp only [run]
    generalize filepathWalk (moveStep E dest) fuel2 ⟨w1.fs, []⟩ src = r at hret1 hfs
    split
    · rename_i wa
      have hfs2 : wa.fs = w1.fs := hfs
      refine filepathWalk_returns pruneStep src
        (fun w => ∀ q x, w.fs.get q = Except.ok x → ∃ y, w1.fs.get q = Except.ok y)
        (w1.fs.height + 1) ?_ pruneStep_returns ?_ fuel2 (by omega) wa ?_
      · intro w p info err hw _ _ q x hq
        obtain ⟨y, hy⟩ := pruneStep_paths w p info err q x hq
        exact hw q y hy
      · intro w q info hw hs
        simp only [stat] at hs
        split at hs
        · rename_i x hx
          obtain ⟨y, hy⟩ := hw q x hx
          have hle : q.length ≤ w1.fs.height := Node.get_length_le _ q y hy
          omega
        · cases hs
      · intro q x hq
        rw [hfs2] at hq
        exact ⟨x, hq⟩
    · exact hret1

/-- Counterexample to C4: with the destination root equal to the source
root, the first run reports `lib/A.jpg` as a duplicate and then moves the
file that stood at its destination; it completes without error, and the
second run renames `lib/A.jpg`. -/
theorem run_twice_renames_on_overlap :
    (run demoEnv 8 ["lib"] ["lib"] ⟨overlapFS, []⟩).2 = Outcome.done none ∧
    (run demoEnv 8 ["lib"] ["lib"] ⟨overlapFS, []⟩).1.out =
      [Msg.duplicate ["lib", "A.jpg"],
       Msg.moved ["lib", "Pictures", "2023-06",
          "20230615-103000-ab1227c76707a747e78727c76707a747e78727c76707a747e78727c76707a747.jpeg"]
         ["lib", "Pictures", "2023-06",
          "20230615-103000-ab127c1dbe5f00a142e38425c66708a94aeb8c2dce6f10b152f39435d67718b9.jpeg"]] ∧
    Msg.moved ["lib", "A.jpg"] ["lib", "Pictures", "2023-06",
        "20230615-103000-ab1227c76707a747e78727c76707a747e78727c76707a747e78727c76707a747.jpeg"]
      ∈ (run demoEnv 8 ["lib"] ["lib"]
          ⟨(run demoEnv 8 ["lib"] ["lib"] ⟨overlapFS, []⟩).1.fs, []⟩).1.out := by
  decide

theorem demoTable_noslash : ∀ c : Char, 127 < c.toNat → demoEnv.lowerTable c ≠ '/' := by
  intro c hc h
  have h1 : c = '/' := h
  rw [h1] at hc
  exact absurd hc (by decide)

theorem demo_separated : Separated ["in"] ["out"] := by
  unfold Separated
  decide

theorem demoRun_completes :
    (run demoEnv 8 ["in"] ["out"] ⟨demoFS, []⟩).2 = Outcome.done none := by
  decide

theorem pair_of_snd {α β : Type} (r : α × β) (b : β) (h : r.2 = b) : r = (r.1, b) := by
  subst h
  rfl

theorem demoRun_height :
    (run demoEnv 8 ["in"] ["out"] ⟨demoFS, []⟩).1.fs.height < ["in"].length + 8 := by
  decide

/-- Witness of C4 as amended: the demo tree sorted from `in` to `out`; the
first run completes, the second prints no line `moved` and returns. -/
theorem run_twice_no_rename_witness :
    Separated ["in"] ["out"] ∧
    (run demoEnv 8 ["in"] ["out"] ⟨demoFS, []⟩).2 = Outcome.done none ∧
    (∀ m ∈ (run demoEnv 8 ["in"] ["out"]
        ⟨(run demoEnv 8 ["in"] ["out"] ⟨demoFS, []⟩).1.fs, []⟩).1.out, m.isMoved = false) ∧
    (run demoEnv 8 ["in"] ["out"]
        ⟨(run demoEnv 8 ["in"] ["out"] ⟨demoFS, []⟩).1.fs, []⟩).2 ≠ Outcome.outOfFuel :=
  have key := run_twice_no_rename demoEnv ["in"] ["out"] demo_separated demoTable_noslash 8
    ⟨demoFS, []⟩ (run demoEnv 8 ["in"] ["out"] ⟨demoFS, []⟩).1
    (pair_of_snd _ _ demoRun_completes) 8
  ⟨demo_separated, demoRun_completes, key.1, key.2.2.2 demoRun_height⟩

end MediaCustodian
